import Mathlib

/-!
Shallow embedding of the concurrent prefix-search (autocomplete) index from
`src/Abhinav/p5/p5.cpp`, together with proofs checking the claims of the
natural-language specification against it.

Strings are modelled as `List Char`; the C++ `uint64_t` arithmetic of
`compute_score`, frequency and timestamp updates is modelled on `Nat` with
explicit reduction modulo `2 ^ 64` where overflow can occur.  The trie is the
inductive tree of nodes; `unordered_map` children and the key index are
association lists (iteration order of `unordered_map` is unspecified in C++;
all order-sensitive facts proved below are insensitive to that order, and
concrete counterexamples use tries whose relevant maps have at most two
entries, inserted in a determined order).  `std::sort` with the strict
comparator `suggestion_cmp_idx` is modelled by insertion sort with the
associated non-strict relation; since the comparator is a strict total order
on the sorted values, the sorted permutation is unique, so the model does not
depend on the choice of sorting algorithm.  Locks are ignored: every claim is
about the sequential semantics of the operations.
-/

namespace AC

abbrev Str := List Char

/-! ### Normalizer: `to_lower_normalize` and `trim` from p5.cpp -/

/-- ASCII `isalpha` (the code only reaches it for chars below 128). -/
def isAsciiAlpha (c : Char) : Bool :=
  (65 ≤ c.toNat && c.toNat ≤ 90) || (97 ≤ c.toNat && c.toNat ≤ 122)

/-- ASCII `isdigit`. -/
def isAsciiDigit (c : Char) : Bool :=
  48 ≤ c.toNat && c.toNat ≤ 57

/-- ASCII `isspace`: space, \t, \n, \v, \f, \r. -/
def isAsciiSpace (c : Char) : Bool :=
  c.toNat = 32 || (9 ≤ c.toNat && c.toNat ≤ 13)

/-- ASCII `tolower`. -/
def asciiLower (c : Char) : Char :=
  if 65 ≤ c.toNat && c.toNat ≤ 90 then Char.ofNat (c.toNat + 32) else c

/-- One character of the first loop of `to_lower_normalize`:
`none` means the character is skipped. -/
def normChar (c : Char) : Option Char :=
  if 128 ≤ c.toNat then none
  else if isAsciiAlpha c then some (asciiLower c)
  else if isAsciiDigit c then some c
  else if isAsciiSpace c then some ' '
  else if c = ',' || c = '.' || c = '-' || c = '&' || c = '/' then some c
  else none

/-- Second loop of `to_lower_normalize`: collapse runs of spaces.
The boolean is the `was_space` flag. -/
def collapseSpaces : List Char → Bool → List Char
  | [], _ => []
  | c :: rest, ws =>
    if c = ' ' then
      if ws then collapseSpaces rest true else ' ' :: collapseSpaces rest true
    else c :: collapseSpaces rest false

/-- The whitespace set of `trim` in p5.cpp: `" \t\r\n"`. -/
def isTrimWs (c : Char) : Bool :=
  c = ' ' || c = '\t' || c = '\r' || c = '\n'

/-- `trim` from p5.cpp: strip leading and trailing `" \t\r\n"` characters. -/
def trim (s : Str) : Str :=
  ((s.dropWhile isTrimWs).reverse.dropWhile isTrimWs).reverse

/-- `to_lower_normalize` from p5.cpp. -/
def to_lower_normalize (s : Str) : Str :=
  trim (collapseSpaces (s.filterMap normChar) false)

/-! ### Suggestion store -/

/-- The `Suggestion` record: display text, frequency, last-used timestamp. -/
structure Suggestion where
  key : Str
  freq : Nat
  last_ts : Nat
deriving DecidableEq

/-- Default value used for (never-taken) out-of-range store reads. -/
def dflt : Suggestion := ⟨[], 0, 0⟩

/-- `compute_score` from p5.cpp: `(freq << 32) | (last_ts & 0xffffffff)` in
`uint64_t` arithmetic. -/
def compute_score (s : Suggestion) : Nat :=
  ((s.freq <<< 32) ||| (s.last_ts &&& 0xffffffff)) % 2 ^ 64

/-- Lexicographic `<` on `List Char`, the order of `std::string::operator<`. -/
def strLt : Str → Str → Bool
  | [], [] => false
  | [], _ :: _ => true
  | _ :: _, [] => false
  | a :: as, b :: bs =>
    if a < b then true else if b < a then false else strLt as bs

/-- `suggestion_cmp_idx` from p5.cpp: higher score first, then key ascending,
then index ascending. -/
def suggestion_cmp_idx (store : List Suggestion) (a b : Nat) : Bool :=
  let sa := store.getD a dflt
  let sb := store.getD b dflt
  let ra := compute_score sa
  let rb := compute_score sb
  if ra ≠ rb then decide (rb < ra)
  else if sa.key ≠ sb.key then strLt sa.key sb.key
  else decide (a < b)

/-- The non-strict companion of `suggestion_cmp_idx`: `a` does not come
strictly after `b`.  A `std::sort` by `suggestion_cmp_idx` produces a list
sorted by this relation. -/
def notAfter (store : List Suggestion) (a b : Nat) : Prop :=
  suggestion_cmp_idx store b a = false

instance (store : List Suggestion) : DecidableRel (notAfter store) := fun _ _ => by
  unfold notAfter; infer_instance

/-- Model of `std::sort(v, suggestion_cmp_idx)`.  Because
`suggestion_cmp_idx` is a strict total order (up to equal indices), every
correct sort returns this list. -/
def sortIdx (store : List Suggestion) (l : List Nat) : List Nat :=
  List.insertionSort (notAfter store) l

/-- `MAX_CACHE_PER_NODE` from p5.cpp. -/
def MAX_CACHE_PER_NODE : Nat := 10

/-- `merge_into_cache` from p5.cpp.  (`resize` down to `MAX_CACHE_PER_NODE`
when longer is exactly `take MAX_CACHE_PER_NODE`.) -/
def merge_into_cache (store : List Suggestion) (cache : List Nat) (idx : Nat) :
    List Nat :=
  if idx ∈ cache then (sortIdx store cache).take MAX_CACHE_PER_NODE
  else (sortIdx store (cache ++ [idx])).take MAX_CACHE_PER_NODE

/-! ### Trie -/

/-- A trie node: end flag, terminal suggestion ids (`suggestion_indices`),
ranked cache (`top_cache`), children. -/
inductive Trie where
  | node (is_end : Bool) (sugg : List Nat) (cache : List Nat)
      (children : List (Char × Trie))

/-- `is_end` field. -/
def Trie.is_end : Trie → Bool
  | .node e _ _ _ => e

/-- `suggestion_indices` field. -/
def Trie.suggestion_indices : Trie → List Nat
  | .node _ s _ _ => s

/-- `top_cache` field. -/
def Trie.top_cache : Trie → List Nat
  | .node _ _ c _ => c

/-- `children` field. -/
def Trie.children : Trie → List (Char × Trie)
  | .node _ _ _ cs => cs

/-- `make_node()`: a fresh empty trie node. -/
def Trie.empty : Trie := .node false [] [] []

/-- `children.find(ch)`. -/
def childOf : List (Char × Trie) → Char → Option Trie
  | [], _ => none
  | (c', t) :: cs, c => if c' = c then some t else childOf cs c

/-- `children[ch] = next`: replace the binding for `c`, or add it. -/
def setChild : List (Char × Trie) → Char → Trie → List (Char × Trie)
  | [], c, t => [(c, t)]
  | (c', t') :: cs, c, t =>
    if c' = c then (c, t) :: cs else (c', t') :: setChild cs c t

/-- The trie walk of `insert_suggestion`: along the normalized key, create
children as needed and merge `idx` into each visited node's cache; at the
terminal node set the end flag and append `idx` to `suggestion_indices`. -/
def Trie.insertPath (store : List Suggestion) (idx : Nat) :
    Trie → Str → Trie
  | .node _ si cache cs, [] =>
    .node true (si ++ [idx]) (merge_into_cache store cache idx) cs
  | .node e si cache cs, c :: rest =>
    let child := (childOf cs c).getD Trie.empty
    .node e si (merge_into_cache store cache idx)
      (setChild cs c (child.insertPath store idx rest))

/-- ` find_node_for_prefix`'s walk over an already-normalized string. -/
def Trie.findNode : Trie → Str → Option Trie
  | t, [] => some t
  | t, c :: rest =>
    match childOf t.children c with
    | none => none
    | some t' => t'.findNode rest

/-! ### Global state and store operations -/

/-- The global state of p5.cpp: `suggestion_store`, `key_to_index`, `root`. -/
structure IndexState where
  suggestion_store : List Suggestion
  key_to_index : List (Str × Nat)
  root : Trie

/-- `key_to_index.find(key)`. -/
def lookupIdx : List (Str × Nat) → Str → Option Nat
  | [], _ => none
  | (k, i) :: m, key => if k = key then some i else lookupIdx m key

/-- `key_to_index.erase(it)`: drop the found (first) entry for `key`. -/
def eraseKey : List (Str × Nat) → Str → List (Str × Nat)
  | [], _ => []
  | (k, i) :: m, key => if k = key then m else (k, i) :: eraseKey m key

/-- The initial state: empty store and map, fresh root. -/
def emptyState : IndexState := ⟨[], [], Trie.empty⟩

/-- `insert_suggestion` from p5.cpp.  The C++ function also returns the store
index used; that index is recoverable as `lookupIdx key_to_index key` of the
resulting state, and no claim mentions the return value. -/
def insert_suggestion (st : IndexState) (raw_key : Str) (timestamp : Nat) :
    IndexState :=
  let key := to_lower_normalize raw_key
  match lookupIdx st.key_to_index key with
  | some idx =>
    let s := st.suggestion_store.getD idx dflt
    let store' := st.suggestion_store.set idx
      { s with freq := (s.freq + 1) % 2 ^ 64, last_ts := timestamp % 2 ^ 64 }
    { suggestion_store := store'
      key_to_index := st.key_to_index
      root := st.root.insertPath store' idx key }
  | none =>
    let idx := st.suggestion_store.length
    let store' := st.suggestion_store ++ [⟨raw_key, 1, timestamp % 2 ^ 64⟩]
    { suggestion_store := store'
      key_to_index := st.key_to_index ++ [(key, idx)]
      root := st.root.insertPath store' idx key }

/-- `delete_suggestion` from p5.cpp. -/
def delete_suggestion (st : IndexState) (raw_key : Str) :
    Bool × IndexState :=
  let key := to_lower_normalize raw_key
  match lookupIdx st.key_to_index key with
  | none => (false, st)
  | some idx =>
    let s := st.suggestion_store.getD idx dflt
    if 1 < s.freq then
      (true, { st with
        suggestion_store :=
          st.suggestion_store.set idx { s with freq := s.freq - 1, last_ts := 0 } })
    else
      (true,
        { suggestion_store :=
            st.suggestion_store.set idx { s with freq := 0, key := [] }
          key_to_index := eraseKey st.key_to_index key
          root := st.root })

/-- ` find_node_for_prefix`. -/
def find_node_for_prefix (st : IndexState) (pfx : Str) : Option Trie :=
  st.root.findNode (to_lower_normalize pfx)

/-! ### Query engine -/

/-- The liveness filter used on cache and BFS candidates:
`idx >= 0 && idx < store.size() && !store[idx].key.empty()`. -/
def liveIdx (store : List Suggestion) (idx : Nat) : Bool :=
  decide (idx < store.length) && !(store.getD idx dflt).key.isEmpty

/-- The cache-scan loop of `gather_top_suggestions`: collect live cached ids
in cache order, stopping once `top_k` have been collected. -/
def scanCache (store : List Suggestion) (top_k : Int) :
    List Nat → List Nat → List Nat
  | acc, [] => acc
  | acc, idx :: rest =>
    if liveIdx store idx then
      if top_k ≤ ((acc.length : Int) + 1) then acc ++ [idx]
      else scanCache store top_k (acc ++ [idx]) rest
    else scanCache store top_k acc rest

/-- Auxiliary size lemma for the BFS termination measure. -/
theorem childrenSizeLt (cs : List (Char × Trie)) :
    (List.map sizeOf (cs.map Prod.snd)).sum < sizeOf cs := by
  induction cs with
  | nil => simp
  | cons p cs ih =>
    cases p with
    | mk c t => simp at ih ⊢; omega

/-- The bounded breadth-first fallback of `gather_top_suggestions`: pop the
queue front, collect its live terminal ids, push its children, while fewer
than `cap = top_k * 5` candidates have been found. -/
def bfsCollect (store : List Suggestion) (cap : Int) :
    (q : List Trie) → List Nat → List Nat
  | [], found => found
  | t :: q, found =>
    if (found.length : Int) < cap then
      bfsCollect store cap (q ++ t.children.map Prod.snd)
        (found ++ t.suggestion_indices.filter (liveIdx store))
    else found
termination_by q _ => (q.map sizeOf).sum
decreasing_by
  simp only [List.map_append, List.sum_append, List.map_cons, List.sum_cons]
  have h : (List.map sizeOf ((Trie.children t).map Prod.snd)).sum < sizeOf t := by
    have h0 := childrenSizeLt (Trie.children t)
    cases t with
    | node e si c cs =>
      simp only [Trie.children] at h0 ⊢
      have h1 : sizeOf (Trie.node e si c cs) =
          1 + sizeOf e + sizeOf si + sizeOf c + sizeOf cs := by simp
      omega
  omega

/-- The final loop of `gather_top_suggestions`: append sorted BFS candidates
to the (not reset!) cache-collected list until `top_k` entries. -/
def fillLoop (top_k : Int) : List Nat → List Nat → List Nat
  | acc, [] => acc
  | acc, x :: rest =>
    if (acc.length : Int) < top_k then fillLoop top_k (acc ++ [x]) rest else acc

/-- `gather_top_suggestions` from p5.cpp. -/
def gather_top_suggestions (store : List Suggestion) (t : Trie) (top_k : Int) :
    List Nat :=
  let result := scanCache store top_k [] t.top_cache
  if top_k ≤ (result.length : Int) then result
  else fillLoop top_k result (sortIdx store (bfsCollect store (top_k * 5) [t] []))

/-- `autocomplete` from p5.cpp. -/
def autocomplete (st : IndexState) (pfx : Str) (top_k : Int) : List Suggestion :=
  match find_node_for_prefix st pfx with
  | none => []
  | some node =>
    (gather_top_suggestions st.suggestion_store node top_k).map
      fun idx => st.suggestion_store.getD idx dflt

/-! ### Levenshtein fallback -/

/-- The inner (`j`) loop of `levenshtein`: `prev` is the old `dp[j-1]`,
`left` the freshly written `dp[j-1]`, the list the old `dp[j..]` values. -/
def levRowStep (x : Char) : List Char → Nat → Nat → List Nat → List Nat
  | [], _, _, _ => []
  | _ :: _, _, _, [] => []
  | y :: bs, prev, left, dj :: rest =>
    let cost : Nat := if x = y then 0 else 1
    let cur := min (dj + 1) (min (left + 1) (prev + cost))
    cur :: levRowStep x bs dj cur rest

/-- One outer (`i`) iteration of `levenshtein`: save `prev = dp[0]`, write
`dp[0] = i`, run the inner loop. -/
def levNewRow (x : Char) (bs : List Char) (i : Nat) (row : List Nat) :
    List Nat :=
  match row with
  | [] => []
  | d0 :: rest => i :: levRowStep x bs d0 i rest

/-- The outer loop of `levenshtein` over the characters of `a`. -/
def levLoop (bs : List Char) : List Char → Nat → List Nat → List Nat
  | [], _, row => row
  | x :: as, i, row => levLoop bs as (i + 1) (levNewRow x bs i row)

/-- `levenshtein` from p5.cpp (rolling one-row dynamic program); returns
`dp[m]`. -/
def levenshtein (a b : Str) : Nat :=
  (levLoop b a 1 (List.range (b.length + 1))).getD b.length 0

/-- The candidate scan of `fuzzy_suggest`: for every live store record, the
pair (distance to the truncated normalized key, store index). -/
def fuzzyCandidates (store : List Suggestion) (norm : Str) :
    List (Nat × Nat) :=
  (List.range store.length).filterMap fun i =>
    let s := store.getD i dflt
    if s.key.isEmpty then none
    else
      let k := to_lower_normalize s.key
      some (levenshtein norm (k.take (min k.length (norm.length + 2))), i)

/-- `std::pair<int,int>` `operator<`: lexicographic. -/
def pairLE (p q : Nat × Nat) : Prop :=
  p.1 < q.1 ∨ (p.1 = q.1 ∧ p.2 ≤ q.2)

instance : DecidableRel pairLE := fun _ _ => by unfold pairLE; infer_instance

/-- Model of `std::sort(candidates)` on (distance, index) pairs; the order is
a total order on the distinct-index pairs produced, so the result is the
unique sorted permutation. -/
def sortCandidates (l : List (Nat × Nat)) : List (Nat × Nat) :=
  List.insertionSort pairLE l

/-- The output loop of `fuzzy_suggest`: first `top_k` records of the sorted
candidates. -/
def fillSugg (store : List Suggestion) (top_k : Int) :
    List Suggestion → List (Nat × Nat) → List Suggestion
  | acc, [] => acc
  | acc, c :: rest =>
    if (acc.length : Int) < top_k then
      fillSugg store top_k (acc ++ [store.getD c.2 dflt]) rest
    else acc

/-- `fuzzy_suggest` from p5.cpp. -/
def fuzzy_suggest (st : IndexState) (pfx : Str) (top_k : Int) :
    List Suggestion :=
  let norm := to_lower_normalize pfx
  fillSugg st.suggestion_store top_k []
    (sortCandidates (fuzzyCandidates st.suggestion_store norm))

/-- A sequence of inserts starting from the empty index. -/
def runInserts (ws : List (Str × Nat)) : IndexState :=
  ws.foldl (fun st w => insert_suggestion st w.1 w.2) emptyState

/-! ### The ranking comparator is a strict total order -/

theorem strLt_irrefl : ∀ a, strLt a a = false
  | [] => rfl
  | c :: as => by simp [strLt, strLt_irrefl as]

theorem strLt_asymm : ∀ {a b}, strLt a b = true → strLt b a = false
  | [], [], h => by simp [strLt] at h
  | [], _ :: _, _ => rfl
  | _ :: _, [], h => by simp [strLt] at h
  | a :: as, b :: bs, h => by
    simp only [strLt] at h ⊢
    rcases lt_trichotomy a b with hab | hab | hab
    · simp [hab, lt_asymm hab, not_lt.2 (le_of_lt hab)]
    · subst hab
      simp only [lt_irrefl, if_false] at h ⊢
      exact strLt_asymm h
    · simp [hab, lt_asymm hab] at h

theorem strLt_trans : ∀ {a b c},
    strLt a b = true → strLt b c = true → strLt a c = true
  | [], _, _ :: _, _, _ => rfl
  | [], _ :: _, [], _, h2 => by simp [strLt] at h2
  | [], [], [], h1, _ => by simp [strLt] at h1
  | _ :: _, [], _, h1, _ => by simp [strLt] at h1
  | _ :: _, _ :: _, [], _, h2 => by simp [strLt] at h2
  | a :: as, b :: bs, c :: cs, h1, h2 => by
    simp only [strLt] at h1 h2 ⊢
    rcases lt_trichotomy a b with hab | hab | hab
    · rcases lt_trichotomy b c with hbc | hbc | hbc
      · simp [lt_trans hab hbc]
      · subst hbc; simp [hab]
      · simp [hbc, lt_asymm hbc] at h2
    · subst hab
      simp only [lt_irrefl, if_false] at h1
      rcases lt_trichotomy a c with hac | hac | hac
      · simp [hac]
      · subst hac
        simp only [lt_irrefl, if_false] at h2 ⊢
        exact strLt_trans h1 h2
      · simp [hac, lt_asymm hac] at h2
    · simp [hab, lt_asymm hab] at h1

theorem strLt_conn : ∀ {a b},
    strLt a b = false → strLt b a = false → a = b
  | [], [], _, _ => rfl
  | [], _ :: _, h1, _ => by simp [strLt] at h1
  | _ :: _, [], _, h2 => by simp [strLt] at h2
  | a :: as, b :: bs, h1, h2 => by
    simp only [strLt] at h1 h2
    rcases lt_trichotomy a b with hab | hab | hab
    · simp [hab] at h1
    · subst hab
      simp only [lt_irrefl, if_false] at h1 h2
      rw [strLt_conn h1 h2]
    · simp [hab, lt_asymm hab] at h2

/-- The comparator with its data abstracted: scores `ra, rb`, keys `ka, kb`,
indices `a, b`. -/
def cmpCore (ra rb : Nat) (ka kb : Str) (a b : Nat) : Bool :=
  if ra = rb then (if ka = kb then decide (a < b) else strLt ka kb)
  else decide (rb < ra)

theorem cmp_eq_core (store : List Suggestion) (a b : Nat) :
    suggestion_cmp_idx store a b =
      cmpCore (compute_score (store.getD a dflt))
        (compute_score (store.getD b dflt))
        (store.getD a dflt).key (store.getD b dflt).key a b := by
  unfold suggestion_cmp_idx cmpCore
  by_cases h1 : compute_score (store.getD a dflt) = compute_score (store.getD b dflt)
  · by_cases h2 : (store.getD a dflt).key = (store.getD b dflt).key
    · simp [h1, h2]
    · simp [h1, h2]
  · simp [h1]

theorem cmpCore_asymm {ra rb : Nat} {ka kb : Str} {a b : Nat}
    (h : cmpCore ra rb ka kb a b = true) : cmpCore rb ra kb ka b a = false := by
  unfold cmpCore at h ⊢
  by_cases hr : ra = rb
  · rw [if_pos hr] at h
    rw [if_pos hr.symm]
    by_cases hk : ka = kb
    · rw [if_pos hk] at h
      rw [if_pos hk.symm]
      simp at h ⊢
      omega
    · rw [if_neg hk] at h
      rw [if_neg (Ne.symm hk)]
      exact strLt_asymm h
  · rw [if_neg hr] at h
    rw [if_neg (Ne.symm hr)]
    simp at h ⊢
    omega

theorem cmpCore_trans {ra rb rc : Nat} {ka kb kc : Str} {a b c : Nat}
    (h1 : cmpCore ra rb ka kb a b = true)
    (h2 : cmpCore rb rc kb kc b c = true) : cmpCore ra rc ka kc a c = true := by
  unfold cmpCore at h1 h2 ⊢
  by_cases hr1 : ra = rb <;> by_cases hr2 : rb = rc
  · rw [if_pos hr1] at h1
    rw [if_pos hr2] at h2
    rw [if_pos (hr1.trans hr2)]
    by_cases hk1 : ka = kb <;> by_cases hk2 : kb = kc
    · rw [if_pos hk1] at h1
      rw [if_pos hk2] at h2
      rw [if_pos (hk1.trans hk2)]
      simp at h1 h2 ⊢
      omega
    · rw [if_pos hk1] at h1
      rw [if_neg hk2] at h2
      rw [if_neg (hk1 ▸ hk2), hk1]
      exact h2
    · rw [if_neg hk1] at h1
      rw [if_pos hk2] at h2
      rw [if_neg (hk2 ▸ hk1), ← hk2]
      exact h1
    · rw [if_neg hk1] at h1
      rw [if_neg hk2] at h2
      have h3 := strLt_trans h1 h2
      have hk3 : ka ≠ kc := fun hh => by
        rw [hh] at h3
        simp [strLt_irrefl] at h3
      rw [if_neg hk3]
      exact h3
  · rw [if_neg (show ra ≠ rc by omega)]
    rw [if_neg hr2] at h2
    simp at h2 ⊢
    omega
  · rw [if_neg hr1] at h1
    rw [if_neg (show ra ≠ rc by rw [← hr2]; exact hr1)]
    rw [← hr2]
    exact h1
  · rw [if_neg hr1] at h1
    rw [if_neg hr2] at h2
    simp at h1 h2
    rw [if_neg (show ra ≠ rc by omega)]
    simp
    omega

theorem cmpCore_conn {ra rb : Nat} {ka kb : Str} {a b : Nat}
    (h1 : cmpCore ra rb ka kb a b = false)
    (h2 : cmpCore rb ra kb ka b a = false) : a = b := by
  unfold cmpCore at h1 h2
  by_cases hr : ra = rb
  · rw [if_pos hr] at h1
    rw [if_pos hr.symm] at h2
    by_cases hk : ka = kb
    · rw [if_pos hk] at h1
      rw [if_pos hk.symm] at h2
      simp at h1 h2
      omega
    · rw [if_neg hk] at h1
      rw [if_neg (Ne.symm hk)] at h2
      exact absurd (strLt_conn h1 h2) hk
  · rw [if_neg hr] at h1
    rw [if_neg (Ne.symm hr)] at h2
    simp at h1 h2
    omega

theorem cmp_irrefl (store : List Suggestion) (a : Nat) :
    suggestion_cmp_idx store a a = false := by
  rw [cmp_eq_core]
  unfold cmpCore
  simp

theorem cmp_asymm {store : List Suggestion} {a b : Nat}
    (h : suggestion_cmp_idx store a b = true) :
    suggestion_cmp_idx store b a = false := by
  rw [cmp_eq_core] at h ⊢
  exact cmpCore_asymm h

theorem cmp_trans {store : List Suggestion} {a b c : Nat}
    (h1 : suggestion_cmp_idx store a b = true)
    (h2 : suggestion_cmp_idx store b c = true) :
    suggestion_cmp_idx store a c = true := by
  rw [cmp_eq_core] at h1 h2 ⊢
  exact cmpCore_trans h1 h2

theorem cmp_conn {store : List Suggestion} {a b : Nat}
    (h1 : suggestion_cmp_idx store a b = false)
    (h2 : suggestion_cmp_idx store b a = false) : a = b := by
  rw [cmp_eq_core] at h1 h2
  exact cmpCore_conn h1 h2

theorem notAfter_total (store : List Suggestion) (a b : Nat) :
    notAfter store a b ∨ notAfter store b a := by
  unfold notAfter
  by_cases h : suggestion_cmp_idx store a b = true
  · exact Or.inl (cmp_asymm h)
  · exact Or.inr (by simpa using h)

theorem notAfter_trans {store : List Suggestion} {a b c : Nat}
    (h1 : notAfter store a b) (h2 : notAfter store b c) : notAfter store a c := by
  unfold notAfter at *
  by_cases h : suggestion_cmp_idx store c a = true
  · by_cases hab : suggestion_cmp_idx store a b = true
    · exact absurd (cmp_trans h hab) (by simp [h2])
    · have : a = b := cmp_conn (by simpa using hab) h1
      subst this
      exact absurd h (by simp [h2])
  · simpa using h

theorem notAfter_antisymm {store : List Suggestion} {a b : Nat}
    (h1 : notAfter store a b) (h2 : notAfter store b a) : a = b :=
  cmp_conn h2 h1

theorem sortIdx_perm (store : List Suggestion) (l : List Nat) :
    List.Perm (sortIdx store l) l :=
  List.perm_insertionSort _ l

theorem sortIdx_sorted (store : List Suggestion) (l : List Nat) :
    List.Sorted (notAfter store) (sortIdx store l) := by
  letI : IsTotal Nat (notAfter store) := ⟨notAfter_total store⟩
  letI : IsTrans Nat (notAfter store) := ⟨fun _ _ _ => notAfter_trans⟩
  exact List.sorted_insertionSort _ l

/-- On duplicate-free lists, sortedness by `notAfter` is strict sortedness by
the comparator itself. -/
theorem sorted_strict {store : List Suggestion} {l : List Nat}
    (hs : List.Sorted (notAfter store) l) (hn : l.Nodup) :
    List.Pairwise (fun a b => suggestion_cmp_idx store a b = true) l := by
  refine (hs.and hn).imp ?_
  rintro a b ⟨hab, hne⟩
  by_cases h : suggestion_cmp_idx store a b = true
  · exact h
  · exact absurd (cmp_conn (by simpa using h) hab) hne

/-! ### Arithmetic of `compute_score` -/

/-- Everything `scanCache` collects beyond its accumulator is a live cached
id. -/
theorem scanCache_mem {store : List Suggestion} {k : Int} :
    ∀ {cache acc x}, x ∈ scanCache store k acc cache →
      x ∈ acc ∨ (x ∈ cache ∧ liveIdx store x = true)
  | [], acc, x, h => Or.inl h
  | idx :: rest, acc, x, h => by
    unfold scanCache at h
    by_cases hl : liveIdx store idx
    · rw [if_pos hl] at h
      by_cases hk : k ≤ ((acc.length : Int) + 1)
      · rw [if_pos hk] at h
        rcases List.mem_append.1 h with h | h
        · exact Or.inl h
        · simp at h
          subst h
          exact Or.inr ⟨List.mem_cons_self _ _, hl⟩
      · rw [if_neg hk] at h
        rcases scanCache_mem h with h | h
        · rcases List.mem_append.1 h with h | h
          · exact Or.inl h
          · simp at h
            subst h
            exact Or.inr ⟨List.mem_cons_self _ _, hl⟩
        · exact Or.inr ⟨List.mem_cons_of_mem _ h.1, h.2⟩
    · rw [if_neg hl] at h
      rcases scanCache_mem h with h | h
      · exact Or.inl h
      · exact Or.inr ⟨List.mem_cons_of_mem _ h.1, h.2⟩

/-- Length bound for the cache scan, assuming the accumulator is still below
`top_k`. -/
theorem scanCache_length_le {store : List Suggestion} {k : Int} :
    ∀ {cache acc}, (acc.length : Int) < k →
      ((scanCache store k acc cache).length : Int) ≤ k
  | [], acc, h => by unfold scanCache; omega
  | idx :: rest, acc, h => by
    unfold scanCache
    by_cases hl : liveIdx store idx
    · rw [if_pos hl]
      by_cases hk : k ≤ ((acc.length : Int) + 1)
      · rw [if_pos hk]
        simp
        omega
      · rw [if_neg hk]
        exact scanCache_length_le (by simp; omega)
    · rw [if_neg hl]
      exact scanCache_length_le h

/-- With a non-positive `top_k` the cache scan stops after at most one
collected id. -/
theorem scanCache_length_nonpos {store : List Suggestion} {k : Int}
    (hk : k ≤ 0) :
    ∀ cache, (scanCache store k [] cache).length ≤ 1 := by
  have main : ∀ (cache : List Nat) (acc : List Nat),
      k ≤ (acc.length : Int) + 1 →
      (scanCache store k acc cache).length ≤ acc.length + 1 := by
    intro cache
    induction cache with
    | nil => intro acc _; unfold scanCache; omega
    | cons idx rest ih =>
      intro acc h
      unfold scanCache
      by_cases hl : liveIdx store idx
      · rw [if_pos hl, if_pos h]
        simp
      · rw [if_neg hl]
        exact ih acc h
  intro cache
  simpa using main cache [] (by simp; omega)

/-- The prefix of the result that `scanCache` was seeded with is preserved. -/
theorem scanCache_take :
    ∀ {store : List Suggestion} {k : Int} {cache acc : List Nat},
      (scanCache store k acc cache).take acc.length = acc ∧
      acc.length ≤ (scanCache store k acc cache).length := by
  intro store k cache
  induction cache with
  | nil =>
    intro acc
    unfold scanCache
    simp
  | cons idx rest ih =>
    intro acc
    unfold scanCache
    by_cases hl : liveIdx store idx
    · rw [if_pos hl]
      by_cases hk : k ≤ ((acc.length : Int) + 1)
      · rw [if_pos hk]
        constructor
        · exact List.take_left ..
        · simp
      · rw [if_neg hk]
        rcases @ih (acc ++ [idx]) with ⟨h1, h2⟩
        constructor
        · have h3 : (scanCache store k (acc ++ [idx]) rest).take acc.length =
              ((scanCache store k (acc ++ [idx]) rest).take (acc ++ [idx]).length).take
                acc.length := by
            rw [List.take_take]
            congr 1
            simp only [List.length_append, List.length_cons, List.length_nil]
            omega
          rw [h3, h1, List.take_left ..]
        · simp at h2
          omega
    · rw [if_neg hl]
      exact ih

/-- `fillLoop` is "append a take of the tail list". -/
theorem fillLoop_eq (k : Int) :
    ∀ (l acc : List Nat),
      fillLoop k acc l = acc ++ l.take (k - acc.length).toNat
  | [], acc => by unfold fillLoop; simp
  | x :: rest, acc => by
    unfold fillLoop
    by_cases h : (acc.length : Int) < k
    · rw [if_pos h, fillLoop_eq k rest (acc ++ [x])]
      have : (k - (acc.length : Int)).toNat = (k - ((acc.length : Int) + 1)).toNat + 1 := by
        omega
      simp [this]
    · rw [if_neg h]
      have : (k - (acc.length : Int)).toNat = 0 := by omega
      simp [this]

/-- Everything the BFS collects beyond its accumulator is live. -/
theorem bfsCollect_mem {store : List Suggestion} {cap : Int} :
    ∀ {q found x}, x ∈ bfsCollect store cap q found →
      x ∈ found ∨ liveIdx store x = true := by
  intro q found x h
  induction q, found using bfsCollect.induct store cap with
  | case1 found => rw [bfsCollect.eq_def] at h; exact Or.inl h
  | case2 t q found hc ih =>
    rw [bfsCollect.eq_def] at h
    simp only [if_pos hc] at h
    rcases ih h with h | h
    · rcases List.mem_append.1 h with h | h
      · exact Or.inl h
      · exact Or.inr (List.of_mem_filter h)
    · exact Or.inr h
  | case3 t q found hc =>
    rw [bfsCollect.eq_def] at h
    simp only [if_neg hc] at h
    exact Or.inl h

/-- Closed form of `gather_top_suggestions`: either the cache scan reached
`top_k`, or the scan result is extended (not replaced!) by a prefix of the
sorted BFS candidates. -/
theorem gather_eq (store : List Suggestion) (t : Trie) (k : Int) :
    gather_top_suggestions store t k =
      if k ≤ ((scanCache store k [] t.top_cache).length : Int) then
        scanCache store k [] t.top_cache
      else
        scanCache store k [] t.top_cache ++
          (sortIdx store (bfsCollect store (k * 5) [t] [])).take
            (k - ((scanCache store k [] t.top_cache).length : Int)).toNat := by
  unfold gather_top_suggestions
  by_cases h : k ≤ ((scanCache store k [] t.top_cache).length : Int)
  · rw [if_pos h, if_pos h]
  · rw [if_neg h, if_neg h, fillLoop_eq]

/-- Every id returned by `gather_top_suggestions` is live. -/
theorem gather_mem_live {store : List Suggestion} {t : Trie} {k : Int} :
    ∀ i ∈ gather_top_suggestions store t k, liveIdx store i = true := by
  intro i hi
  rw [gather_eq] at hi
  by_cases h : k ≤ ((scanCache store k [] t.top_cache).length : Int)
  · rw [if_pos h] at hi
    rcases scanCache_mem hi with h1 | h1
    · simp at h1
    · exact h1.2
  · rw [if_neg h] at hi
    rcases List.mem_append.1 hi with h1 | h1
    · rcases scanCache_mem h1 with h2 | h2
      · simp at h2
      · exact h2.2
    · have h2 : i ∈ sortIdx store (bfsCollect store (k * 5) [t] []) :=
        List.mem_of_mem_take h1
      have h3 : i ∈ bfsCollect store (k * 5) [t] [] :=
        (sortIdx_perm store _).mem_iff.1 h2
      rcases bfsCollect_mem h3 with h4 | h4
      · simp at h4
      · exact h4

/-- The cache-scan part is an unchanged prefix of the gather result. -/
theorem gather_take (store : List Suggestion) (t : Trie) (k : Int) :
    (gather_top_suggestions store t k).take
        (scanCache store k [] t.top_cache).length =
      scanCache store k [] t.top_cache := by
  rw [gather_eq]
  by_cases h : k ≤ ((scanCache store k [] t.top_cache).length : Int)
  · rw [if_pos h, List.take_length]
  · rw [if_neg h, List.take_left ..]

/-- Whatever the fallback appends after the cache-collected prefix is sorted
by the ranking order. -/
theorem gather_drop_sorted (store : List Suggestion) (t : Trie) (k : Int) :
    List.Pairwise (notAfter store)
      ((gather_top_suggestions store t k).drop
        (scanCache store k [] t.top_cache).length) := by
  rw [gather_eq]
  by_cases h : k ≤ ((scanCache store k [] t.top_cache).length : Int)
  · rw [if_pos h, List.drop_length]
    exact List.Pairwise.nil
  · rw [if_neg h, List.drop_left ..]
    exact List.Pairwise.sublist (List.take_sublist _ _) (sortIdx_sorted store _)

/-- The portion after the cache-collected prefix is exactly the first
`top_k - collected` elements of the sorted BFS candidate set (and `[]` when
the scan already reached `top_k`). -/
theorem gather_drop_eq (store : List Suggestion) (t : Trie) (k : Int) :
    (gather_top_suggestions store t k).drop
        (scanCache store k [] t.top_cache).length
      = (sortIdx store (bfsCollect store (k * 5) [t] [])).take
          (k - ((scanCache store k [] t.top_cache).length : Int)).toNat := by
  rw [gather_eq]
  by_cases h : k ≤ ((scanCache store k [] t.top_cache).length : Int)
  · rw [if_pos h, List.drop_length]
    have h0 : (k - ((scanCache store k [] t.top_cache).length : Int)).toNat
        = 0 := by omega
    rw [h0, List.take_zero]
  · rw [if_neg h, List.drop_left ..]

/-- For positive `top_k`, the gather result has at most `top_k` entries. -/
theorem gather_length_le {store : List Suggestion} {t : Trie} {k : Int}
    (hk : 1 ≤ k) :
    ((gather_top_suggestions store t k).length : Int) ≤ k := by
  rw [gather_eq]
  have hscan : ((scanCache store k [] t.top_cache).length : Int) ≤ k :=
    scanCache_length_le (by simp; omega)
  by_cases h : k ≤ ((scanCache store k [] t.top_cache).length : Int)
  · rw [if_pos h]
    exact hscan
  · rw [if_neg h]
    have := List.length_take
      ((k - ((scanCache store k [] t.top_cache).length : Int)).toNat)
      (sortIdx store (bfsCollect store (k * 5) [t] []))
    simp only [List.length_append]
    omega

/-- Every record returned by `autocomplete` has a non-empty display text. -/
theorem autocomplete_mem_key {st : IndexState} {pfx : Str} {k : Int} :
    ∀ s ∈ autocomplete st pfx k, s.key ≠ [] := by
  intro s hs
  unfold autocomplete at hs
  cases hfind : find_node_for_prefix st pfx with
  | none => rw [hfind] at hs; simp at hs
  | some node =>
    rw [hfind] at hs
    rcases List.mem_map.1 hs with ⟨i, hi, rfl⟩
    have := gather_mem_live i hi
    unfold liveIdx at this
    simp only [Bool.and_eq_true, decide_eq_true_eq, Bool.not_eq_true'] at this
    simpa [List.isEmpty_iff] using this.2

/-- Membership description for the `fuzzy_suggest` output loop. -/
theorem fillSugg_mem {store : List Suggestion} {k : Int} :
    ∀ {l acc x}, x ∈ fillSugg store k acc l →
      x ∈ acc ∨ ∃ c ∈ l, x = store.getD c.2 dflt
  | [], acc, x, h => Or.inl h
  | c :: rest, acc, x, h => by
    unfold fillSugg at h
    by_cases hk : ((acc.length : Int) < k)
    · rw [if_pos hk] at h
      rcases fillSugg_mem h with h1 | h1
      · rcases List.mem_append.1 h1 with h2 | h2
        · exact Or.inl h2
        · exact Or.inr ⟨c, List.mem_cons_self _ _, List.mem_singleton.1 h2⟩
      · rcases h1 with ⟨c', hc', rfl⟩
        exact Or.inr ⟨c', List.mem_cons_of_mem _ hc', rfl⟩
    · rw [if_neg hk] at h
      exact Or.inl h

/-- Every candidate produced by the fuzzy scan points at a live record. -/
theorem fuzzyCandidates_mem {store : List Suggestion} {norm : Str} {c : Nat × Nat}
    (hc : c ∈ fuzzyCandidates store norm) :
    (store.getD c.2 dflt).key.isEmpty = false := by
  unfold fuzzyCandidates at hc
  rcases List.mem_filterMap.1 hc with ⟨i, _, hi⟩
  by_cases h : (store.getD i dflt).key.isEmpty
  · simp only [if_pos h] at hi
    simp at hi
  · simp only [if_neg h] at hi
    simp only [Option.some_inj] at hi
    rw [← hi]
    simpa using h

/-- Every record returned by `fuzzy_suggest` has a non-empty display text. -/
theorem fuzzy_mem_key {st : IndexState} {pfx : Str} {k : Int} :
    ∀ s ∈ fuzzy_suggest st pfx k, s.key ≠ [] := by
  intro s hs
  unfold fuzzy_suggest at hs
  rcases fillSugg_mem hs with h | ⟨c, hc, rfl⟩
  · simp at h
  · have h2 : c ∈ fuzzyCandidates st.suggestion_store (to_lower_normalize pfx) :=
      (List.perm_insertionSort _ _).mem_iff.1 hc
    have := fuzzyCandidates_mem h2
    simpa [List.isEmpty_iff] using this

/-! ### Store and key-index lemmas -/

theorem getD_set_self {α : Type} {d : α} {l : List α} {i : Nat}
    (h : i < l.length) (v : α) : (l.set i v).getD i d = v := by
  simp [List.getD, List.getElem?_set_self h]

theorem getD_set_ne {α : Type} {d : α} {l : List α} {i j : Nat}
    (h : i ≠ j) (v : α) : (l.set i v).getD j d = l.getD j d := by
  simp [List.getD, List.getElem?_set_ne h]

theorem getD_append {α : Type} {d : α} {l l' : List α} {i : Nat}
    (h : i < l.length) : (l ++ l').getD i d = l.getD i d := by
  simp [List.getD, List.getElem?_append_left h]

theorem getD_append_length {α : Type} {d : α} (l : List α) (v : α) :
    (l ++ [v]).getD l.length d = v := by
  simp [List.getD]

theorem lookupIdx_mem : ∀ {m : List (Str × Nat)} {key : Str} {i : Nat},
    lookupIdx m key = some i → (key, i) ∈ m
  | [], _, _, h => by simp [lookupIdx] at h
  | (k, v) :: m, key, i, h => by
    unfold lookupIdx at h
    by_cases hk : k = key
    · rw [if_pos hk] at h
      simp only [Option.some_inj] at h
      subst hk
      subst h
      exact List.mem_cons_self _ _
    · rw [if_neg hk] at h
      exact List.mem_cons_of_mem _ (lookupIdx_mem h)

theorem lookupIdx_append_none : ∀ {m : List (Str × Nat)} (m' : List (Str × Nat))
    {key : Str}, lookupIdx m key = none →
    lookupIdx (m ++ m') key = lookupIdx m' key
  | [], m', _, _ => rfl
  | (k, v) :: m, m', key, h => by
    simp only [lookupIdx, List.cons_append] at h ⊢
    by_cases hk : k = key
    · rw [if_pos hk] at h
      exact absurd h (by simp)
    · rw [if_neg hk] at h ⊢
      exact lookupIdx_append_none m' h

theorem lookupIdx_append_some : ∀ {m : List (Str × Nat)} (m' : List (Str × Nat))
    {key : Str} {i : Nat}, lookupIdx m key = some i →
    lookupIdx (m ++ m') key = some i
  | [], _, _, _, h => by simp [lookupIdx] at h
  | (k, v) :: m, m', key, i, h => by
    simp only [lookupIdx, List.cons_append] at h ⊢
    by_cases hk : k = key
    · rw [if_pos hk] at h ⊢
      exact h
    · rw [if_neg hk] at h ⊢
      exact lookupIdx_append_some m' h

/-- Well-formedness of the key index: every id it holds is in range. -/
def KeyIdxWF (st : IndexState) : Prop :=
  ∀ p ∈ st.key_to_index, p.2 < st.suggestion_store.length

/-- Reduction of `insert_suggestion` when the normalized key is present. -/
theorem insert_existing (st : IndexState) (k : Str) (t : Nat) (idx : Nat)
    (hidx : lookupIdx st.key_to_index (to_lower_normalize k) = some idx) :
    insert_suggestion st k t =
      { suggestion_store := st.suggestion_store.set idx
          { st.suggestion_store.getD idx dflt with
              freq := ((st.suggestion_store.getD idx dflt).freq + 1) % 2 ^ 64
              last_ts := t % 2 ^ 64 }
        key_to_index := st.key_to_index
        root := st.root.insertPath
          (st.suggestion_store.set idx
            { st.suggestion_store.getD idx dflt with
                freq := ((st.suggestion_store.getD idx dflt).freq + 1) % 2 ^ 64
                last_ts := t % 2 ^ 64 })
          idx (to_lower_normalize k) } := by
  simp only [insert_suggestion]
  rw [hidx]

/-- Reduction of `insert_suggestion` when the normalized key is absent. -/
theorem insert_new (st : IndexState) (k : Str) (t : Nat)
    (h : lookupIdx st.key_to_index (to_lower_normalize k) = none) :
    insert_suggestion st k t =
      { suggestion_store := st.suggestion_store ++ [⟨k, 1, t % 2 ^ 64⟩]
        key_to_index := st.key_to_index ++
          [(to_lower_normalize k, st.suggestion_store.length)]
        root := st.root.insertPath (st.suggestion_store ++ [⟨k, 1, t % 2 ^ 64⟩])
          st.suggestion_store.length (to_lower_normalize k) } := by
  simp only [insert_suggestion]
  rw [h]

/-- Inserting preserves key-index well-formedness. -/
theorem insert_wf {st : IndexState} (h : KeyIdxWF st) (k : Str) (t : Nat) :
    KeyIdxWF (insert_suggestion st k t) := by
  cases hl : lookupIdx st.key_to_index (to_lower_normalize k) with
  | some idx =>
    rw [insert_existing st k t idx hl]
    intro p hp
    simpa using h p hp
  | none =>
    rw [insert_new st k t hl]
    intro p hp
    rcases List.mem_append.1 hp with hp | hp
    · have := h p hp
      simp
      omega
    · simp at hp
      subst hp
      simp

/-! ### Claims C1, C2, C7, C8, C10 -/

/-- Claim C1 counterexample: after a single insert of key "a",
`autocomplete("a", 2)` returns the same suggestion record twice, because the
BFS fallback appends its candidates to the cache-collected ids without
removing duplicates.  In particular the result neither is duplicate-free nor
equals the first `top_k` of the sorted candidate set. -/
theorem c1_counterexample :
    autocomplete (runInserts [(['a', 'a'], 0), (['a', 'b'], 0)]) ['a'] 3
        = [⟨['a', 'a'], 1, 0⟩, ⟨['a', 'b'], 1, 0⟩, ⟨['a', 'a'], 1, 0⟩]
    ∧ ¬ (autocomplete
        (runInserts [(['a', 'a'], 0), (['a', 'b'], 0)]) ['a'] 3).Nodup
    ∧ compute_score ⟨['a', 'b'], 1, 0⟩ = compute_score ⟨['a', 'a'], 1, 0⟩
    ∧ strLt ['a', 'a'] ['a', 'b'] = true := by
  have hst : runInserts [(['a', 'a'], 0), (['a', 'b'], 0)] =
      ⟨[⟨['a', 'a'], 1, 0⟩, ⟨['a', 'b'], 1, 0⟩],
        [(['a', 'a'], 0), (['a', 'b'], 1)],
        Trie.node false [] [0, 1]
          [('a', Trie.node false [] [0, 1]
            [('a', Trie.node true [0] [0] []),
             ('b', Trie.node true [1] [1] [])])]⟩ := rfl
  have h1 : find_node_for_prefix
      (⟨[⟨['a', 'a'], 1, 0⟩, ⟨['a', 'b'], 1, 0⟩],
        [(['a', 'a'], 0), (['a', 'b'], 1)],
        Trie.node false [] [0, 1]
          [('a', Trie.node false [] [0, 1]
            [('a', Trie.node true [0] [0] []),
             ('b', Trie.node true [1] [1] [])])]⟩ : IndexState)
      ['a'] = some (Trie.node false [] [0, 1]
        [('a', Trie.node true [0] [0] []),
         ('b', Trie.node true [1] [1] [])]) := rfl
  have hdup : autocomplete
      (runInserts [(['a', 'a'], 0), (['a', 'b'], 0)]) ['a'] 3
      = [⟨['a', 'a'], 1, 0⟩, ⟨['a', 'b'], 1, 0⟩, ⟨['a', 'a'], 1, 0⟩] := by
    rw [hst]
    unfold autocomplete
    rw [h1]
    dsimp only
    have hg : gather_top_suggestions
        [⟨['a', 'a'], 1, 0⟩, ⟨['a', 'b'], 1, 0⟩]
        (Trie.node false [] [0, 1]
          [('a', Trie.node true [0] [0] []),
           ('b', Trie.node true [1] [1] [])]) 3 = [0, 1, 0] := by
      simp [gather_top_suggestions, scanCache, liveIdx, Trie.top_cache,
        bfsCollect.eq_def, Trie.children, Trie.suggestion_indices, fillLoop,
        sortIdx, notAfter, suggestion_cmp_idx, compute_score, strLt]
    rw [hg]
    rfl
  refine ⟨hdup, by rw [hdup]; decide, by decide, by decide⟩

/-- Claim C1 (amended): every id chosen by `gather_top_suggestions` is live;
the cache-collected ids form an unchanged prefix of the result; and the
portion after that prefix is EXACTLY the first `top_k - collected` elements
of the BFS candidate set sorted by the §4.3 total order (hence itself sorted
by that order).  The claim's whole-list sortedness, uniqueness and "equals
the sorted first `top_k`" parts are false: the cache-collected ids are
neither re-sorted nor removed from the BFS candidate set, so a record can
reappear out of order. -/
theorem c1_theorem (store : List Suggestion) (t : Trie) (k : Int) :
    (∀ i ∈ gather_top_suggestions store t k, liveIdx store i = true)
    ∧ (gather_top_suggestions store t k).take
        (scanCache store k [] t.top_cache).length
        = scanCache store k [] t.top_cache
    ∧ (gather_top_suggestions store t k).drop
        (scanCache store k [] t.top_cache).length
        = (sortIdx store (bfsCollect store (k * 5) [t] [])).take
            (k - ((scanCache store k [] t.top_cache).length : Int)).toNat
    ∧ List.Pairwise (notAfter store)
        ((gather_top_suggestions store t k).drop
          (scanCache store k [] t.top_cache).length) :=
  ⟨gather_mem_live, gather_take store t k, gather_drop_eq store t k,
    gather_drop_sorted store t k⟩

/-- Witness for ` c1_theorem` at a concrete store, node and query. -/
theorem c1_witness :
    0 ∈ gather_top_suggestions [⟨['a'], 1, 0⟩] (Trie.node true [0] [0] []) 1
    ∧ liveIdx [⟨['a'], 1, 0⟩] 0 = true :=
  ⟨by decide,
    ( c1_theorem [⟨['a'], 1, 0⟩] (Trie.node true [0] [0] []) 1).1 0 (by decide)⟩

/-- Claim C7: a tombstoned record (empty display text) is never chosen by
`gather_top_suggestions`, never returned by `autocomplete`, and never
returned by `fuzzy_suggest`, even though its slot remains in the store. -/
theorem c7_theorem (st : IndexState) (pfx : Str) (k : Int) (i : Nat)
    (hi : (st.suggestion_store.getD i dflt).key = []) :
    (∀ t : Trie, i ∉ gather_top_suggestions st.suggestion_store t k)
    ∧ st.suggestion_store.getD i dflt ∉ autocomplete st pfx k
    ∧ st.suggestion_store.getD i dflt ∉ fuzzy_suggest st pfx k := by
  refine ⟨?_, ?_, ?_⟩
  · intro t hmem
    have h := gather_mem_live i hmem
    unfold liveIdx at h
    rw [hi] at h
    simp at h
  · exact fun hmem => (autocomplete_mem_key _ hmem) hi
  · exact fun hmem => (fuzzy_mem_key _ hmem) hi

/-- Witness for ` c7_theorem`: insert "a", delete it (frequency was 1, so it
tombstones), then the tombstoned record is not in `autocomplete("x", 1)`. -/
theorem c7_witness :
    (((delete_suggestion (runInserts [(['a'], 0)]) ['a']).2.suggestion_store.getD
        0 dflt).key = [])
    ∧ (delete_suggestion (runInserts [(['a'], 0)]) ['a']).2.suggestion_store.getD
        0 dflt
      ∉ autocomplete (delete_suggestion (runInserts [(['a'], 0)]) ['a']).2 ['x'] 1 :=
  ⟨by decide, ( c7_theorem _ ['x'] 1 0 (by decide)).2.1⟩

/-- Claim C8 counterexample: `autocomplete` with `top_k = 0` is not rejected;
it proceeds and even returns a (one-element) result. -/
theorem c8_counterexample :
    autocomplete (runInserts [(['a'], 0)]) ['a'] 0 = [⟨['a'], 1, 0⟩] := by
  decide

/-- Claim C8 (amended): no validation of non-positive `top_k` (or of the
fixed cache size 10) exists anywhere; a call with `top_k ≤ 0` proceeds
normally and returns at most one suggestion (the cache scan collects one live
id before noticing it already reached `top_k`). -/
theorem c8_theorem (st : IndexState) (pfx : Str) (k : Int) (hk : k ≤ 0) :
    (autocomplete st pfx k).length ≤ 1 := by
  unfold autocomplete
  cases hfind : find_node_for_prefix st pfx with
  | none => simp
  | some node =>
    simp only [List.length_map]
    rw [gather_eq]
    have hpos : (0 : Int) ≤
        ((scanCache st.suggestion_store k [] node.top_cache).length : Int) := by
      exact_mod_cast Nat.zero_le _
    rw [if_pos (le_trans hk hpos)]
    exact scanCache_length_nonpos hk _

/-- Witness for ` c8_theorem` at `top_k = 0` on a one-entry index. -/
theorem c8_witness :
    (autocomplete (runInserts [(['a'], 0)]) ['a'] 0).length ≤ 1 :=
  c8_theorem (runInserts [(['a'], 0)]) ['a'] 0 (by decide)

/-- Claim C10: a raw prefix that normalizes to the empty string resolves to
the root node (not "not found"); `autocomplete` then returns up to `top_k`
live suggestions gathered from the whole index. -/
theorem c10_theorem (st : IndexState) (pfx : Str) (k : Int)
    (hp : to_lower_normalize pfx = []) (hk : 1 ≤ k) :
    find_node_for_prefix st pfx = some st.root
    ∧ autocomplete st pfx k =
        (gather_top_suggestions st.suggestion_store st.root k).map
          (fun i => st.suggestion_store.getD i dflt)
    ∧ ((autocomplete st pfx k).length : Int) ≤ k
    ∧ ∀ s ∈ autocomplete st pfx k, s.key ≠ [] := by
  have h1 : find_node_for_prefix st pfx = some st.root := by
    unfold find_node_for_prefix
    rw [hp]
    rfl
  refine ⟨h1, ?_, ?_, autocomplete_mem_key⟩
  · unfold autocomplete
    rw [h1]
  · unfold autocomplete
    rw [h1]
    simp only [List.length_map]
    exact gather_length_le hk

/-- Witness for ` c10_theorem`: the prefix "!" normalizes to the empty string,
and the walk resolves to the root. -/
theorem c10_witness :
    to_lower_normalize ['!'] = []
    ∧ find_node_for_prefix (runInserts [(['a'], 0)]) ['!']
        = some (runInserts [(['a'], 0)]).root :=
  ⟨by decide, ( c10_theorem (runInserts [(['a'], 0)]) ['!'] 1
    (by decide) (by decide)).1⟩

/-! ### Claims C5, C6 -/

/-- Claim C6: the full case analysis of `delete_suggestion`.  It returns
`false` iff the normalized key is absent (leaving everything unchanged);
with frequency > 1 it decrements the frequency, zeroes the recency, keeps the
key-index entry and returns `true`; with frequency 1 it clears the display
text, zeroes the frequency, erases the key-index entry (keeping the store
slot) and returns `true`. -/
theorem c6_theorem (st : IndexState) (k : Str) :
    ((delete_suggestion st k).1 = false ↔
      lookupIdx st.key_to_index (to_lower_normalize k) = none)
    ∧ (lookupIdx st.key_to_index (to_lower_normalize k) = none →
        (delete_suggestion st k).2 = st)
    ∧ (∀ idx, lookupIdx st.key_to_index (to_lower_normalize k) = some idx →
        1 < (st.suggestion_store.getD idx dflt).freq →
        (delete_suggestion st k).1 = true
        ∧ (delete_suggestion st k).2.suggestion_store =
            st.suggestion_store.set idx
              { st.suggestion_store.getD idx dflt with
                  freq := (st.suggestion_store.getD idx dflt).freq - 1
                  last_ts := 0 }
        ∧ (delete_suggestion st k).2.key_to_index = st.key_to_index
        ∧ (delete_suggestion st k).2.root = st.root)
    ∧ (∀ idx, lookupIdx st.key_to_index (to_lower_normalize k) = some idx →
        (st.suggestion_store.getD idx dflt).freq = 1 →
        (delete_suggestion st k).1 = true
        ∧ (delete_suggestion st k).2.suggestion_store =
            st.suggestion_store.set idx
              { st.suggestion_store.getD idx dflt with freq := 0, key := [] }
        ∧ (delete_suggestion st k).2.key_to_index =
            eraseKey st.key_to_index (to_lower_normalize k)
        ∧ (delete_suggestion st k).2.suggestion_store.length =
            st.suggestion_store.length
        ∧ (delete_suggestion st k).2.root = st.root) := by
  cases hl : lookupIdx st.key_to_index (to_lower_normalize k) with
  | none =>
    have hred : delete_suggestion st k = (false, st) := by
      simp only [delete_suggestion]
      rw [hl]
    refine ⟨?_, ?_, ?_, ?_⟩
    · rw [hred]
      simp
    · intro _
      rw [hred]
    · intro idx hidx
      exact absurd hidx (by simp)
    · intro idx hidx
      exact absurd hidx (by simp)
  | some idx =>
    by_cases hf : 1 < (st.suggestion_store.getD idx dflt).freq
    · have hred : delete_suggestion st k =
          (true, { st with
            suggestion_store := st.suggestion_store.set idx
              { st.suggestion_store.getD idx dflt with
                  freq := (st.suggestion_store.getD idx dflt).freq - 1
                  last_ts := 0 } }) := by
        simp only [delete_suggestion]
        rw [hl]
        simp only [if_pos hf]
      refine ⟨?_, ?_, ?_, ?_⟩
      · rw [hred]
        simp
      · intro hcontr
        exact absurd hcontr (by simp)
      · intro idx' hidx' _
        simp only [Option.some_inj] at hidx'
        subst hidx'
        rw [hred]
        exact ⟨rfl, rfl, rfl, rfl⟩
      · intro idx' hidx' hf1
        simp only [Option.some_inj] at hidx'
        subst hidx'
        omega
    · have hred : delete_suggestion st k =
          (true,
            { suggestion_store := st.suggestion_store.set idx
                { st.suggestion_store.getD idx dflt with freq := 0, key := [] }
              key_to_index := eraseKey st.key_to_index (to_lower_normalize k)
              root := st.root }) := by
        simp only [delete_suggestion]
        rw [hl]
        simp only [if_neg hf]
      refine ⟨?_, ?_, ?_, ?_⟩
      · rw [hred]
        simp
      · intro hcontr
        exact absurd hcontr (by simp)
      · intro idx' hidx' hf'
        simp only [Option.some_inj] at hidx'
        subst hidx'
        omega
      · intro idx' hidx' _
        simp only [Option.some_inj] at hidx'
        subst hidx'
        rw [hred]
        exact ⟨rfl, rfl, rfl, by simp, rfl⟩

/-- Witness for ` c6_theorem`: deleting "a" after inserting it twice takes the
decrement branch. -/
theorem c6_witness :
    (lookupIdx (runInserts [(['a'], 3), (['a'], 4), (['b'], 5)]).key_to_index
        (to_lower_normalize ['a']) = some 0
      ∧ 1 < ((runInserts [(['a'], 3), (['a'], 4), (['b'], 5)]).suggestion_store.getD
          0 dflt).freq)
    ∧ (delete_suggestion (runInserts [(['a'], 3), (['a'], 4), (['b'], 5)])
        ['a']).1 = true :=
  ⟨⟨by decide, by decide⟩,
    (( c6_theorem (runInserts [(['a'], 3), (['a'], 4), (['b'], 5)]) ['a']).2.2.1
      0 (by decide) (by decide)).1⟩

/-- Claim C5 counterexample: `freq` is a `uint64_t`; starting from a record
whose frequency is `2^64 - 2`, the second repeat insert wraps the frequency
to 0 instead of `2^64`, so "frequency exactly one greater than after the
first insert" fails. -/
theorem c5_counterexample :
    ((insert_suggestion (insert_suggestion
          ⟨[⟨['k'], 2 ^ 64 - 2, 0⟩], [(['k'], 0)], Trie.empty⟩ ['k'] 1)
        ['k'] 2).suggestion_store.getD 0 dflt).freq = 0
    ∧ ((insert_suggestion
          ⟨[⟨['k'], 2 ^ 64 - 2, 0⟩], [(['k'], 0)], Trie.empty⟩ ['k']
          1).suggestion_store.getD 0 dflt).freq = 2 ^ 64 - 1
    ∧ (0 : Nat) ≠ (2 ^ 64 - 1) + 1 := by
  decide

/-- Claim C5 (amended): after `insert(k, t)` then `insert(k, t')` (with the
`uint64_t` timestamp `t' < 2^64`, a well-formed key index, and no frequency
wrap-around), the record at the key-index id of `normalize(k)` has frequency
exactly one greater than after the first insert and recency `t'`; its display
text, the whole key index (hence the id), and every other store record are
unchanged by the second insert. -/
theorem c5_theorem (st : IndexState) (k : Str) (t t' : Nat)
    (wf : KeyIdxWF st) (ht' : t' < 2 ^ 64) (idx : Nat)
    (hidx : lookupIdx (insert_suggestion st k t).key_to_index
        (to_lower_normalize k) = some idx)
    (hnov : ((insert_suggestion st k t).suggestion_store.getD idx dflt).freq + 1
        < 2 ^ 64) :
    (((insert_suggestion (insert_suggestion st k t) k t').suggestion_store.getD
          idx dflt).freq
        = ((insert_suggestion st k t).suggestion_store.getD idx dflt).freq + 1)
    ∧ ((insert_suggestion (insert_suggestion st k t) k t').suggestion_store.getD
          idx dflt).last_ts = t'
    ∧ ((insert_suggestion (insert_suggestion st k t) k t').suggestion_store.getD
          idx dflt).key
        = ((insert_suggestion st k t).suggestion_store.getD idx dflt).key
    ∧ (insert_suggestion (insert_suggestion st k t) k t').key_to_index
        = (insert_suggestion st k t).key_to_index
    ∧ lookupIdx (insert_suggestion (insert_suggestion st k t) k t').key_to_index
        (to_lower_normalize k) = some idx
    ∧ ∀ j, j ≠ idx →
        (insert_suggestion (insert_suggestion st k t) k t').suggestion_store.getD
            j dflt
          = (insert_suggestion st k t).suggestion_store.getD j dflt := by
  have hwf1 : KeyIdxWF (insert_suggestion st k t) := insert_wf wf k t
  have hlen : idx < (insert_suggestion st k t).suggestion_store.length :=
    hwf1 _ (lookupIdx_mem hidx)
  have hred := insert_existing (insert_suggestion st k t) k t' idx hidx
  rw [hred]
  refine ⟨?_, ?_, ?_, rfl, by rw [hidx], ?_⟩
  · simp only [getD_set_self hlen]
    exact Nat.mod_eq_of_lt hnov
  · simp only [getD_set_self hlen]
    exact Nat.mod_eq_of_lt ht'
  · simp only [getD_set_self hlen]
  · intro j hj
    exact getD_set_ne (fun h => hj h.symm) _

/-- Witness for ` c5_theorem`: inserting "a" twice into the empty index. -/
theorem c5_witness :
    ((insert_suggestion (insert_suggestion emptyState ['a'] 1) ['a']
          2).suggestion_store.getD 0 dflt).freq
      = ((insert_suggestion emptyState ['a'] 1).suggestion_store.getD
          0 dflt).freq + 1 :=
  ( c5_theorem emptyState ['a'] 1 2 (by intro p hp; simp [emptyState] at hp)
    (by decide) 0 (by decide) (by decide)).1

/-! ### Claim C9: the Levenshtein dynamic program computes the standard
recursive edit distance -/

/-- The standard (unit-cost, front-recursive) Levenshtein edit distance, the
reference meaning of "Levenshtein edit distance" in §4.5 of the spec. -/
def levSpec : Str → Str → Nat
  | [], v => v.length
  | _ :: u, [] => u.length + 1
  | x :: u, y :: v =>
    min (levSpec u (y :: v) + 1)
      (min (levSpec (x :: u) v + 1) (levSpec u v + (if x = y then 0 else 1)))
termination_by u v => u.length + v.length
decreasing_by
  all_goals simp only [List.length_cons]
  all_goals omega

theorem levSpec_nil (v : Str) : levSpec [] v = v.length := by
  rw [levSpec.eq_def]

theorem levSpec_cons_nil (x : Char) (u : Str) :
    levSpec (x :: u) [] = u.length + 1 := by
  rw [levSpec.eq_def]

theorem levSpec_cons_cons (x : Char) (u : Str) (y : Char) (v : Str) :
    levSpec (x :: u) (y :: v) =
      min (levSpec u (y :: v) + 1)
        (min (levSpec (x :: u) v + 1) (levSpec u v + (if x = y then 0 else 1))) := by
  rw [levSpec.eq_def]

theorem levSpec_nil_right : ∀ u : Str, levSpec u [] = u.length
  | [] => levSpec_nil []
  | x :: u => by rw [levSpec_cons_nil]; rfl

/-- One-sided 3×3 min-exchange bound: the row-wise nested minimum is at most
the column-wise nested minimum. -/
theorem min_exchange_aux (b1 b2 b3 b4 b5 b6 b7 b8 b9 p q : Nat) :
    min (min (b1 + 1) (min (b2 + 1) (b3 + p)) + 1)
      (min (min (b4 + 1) (min (b5 + 1) (b6 + p)) + 1)
        (min (b7 + 1) (min (b8 + 1) (b9 + p)) + q))
  ≤ min (min (b1 + 1) (min (b4 + 1) (b7 + q)) + 1)
      (min (min (b2 + 1) (min (b5 + 1) (b8 + q)) + 1)
        (min (b3 + 1) (min (b6 + 1) (b9 + q)) + p)) := by
  generalize hA : min (min (b1 + 1) (min (b2 + 1) (b3 + p)) + 1)
      (min (min (b4 + 1) (min (b5 + 1) (b6 + p)) + 1)
        (min (b7 + 1) (min (b8 + 1) (b9 + p)) + q)) = A
  have l1 : A ≤ min (b1 + 1) (min (b2 + 1) (b3 + p)) + 1 := hA ▸ min_le_left _ _
  have l2 : A ≤ min (b4 + 1) (min (b5 + 1) (b6 + p)) + 1 :=
    hA ▸ le_trans (min_le_right _ _) (min_le_left _ _)
  have l3 : A ≤ min (b7 + 1) (min (b8 + 1) (b9 + p)) + q :=
    hA ▸ le_trans (min_le_right _ _) (min_le_right _ _)
  clear hA
  refine le_min ?_ (le_min ?_ ?_) <;> omega

/-- The 3×3 min-exchange identity behind the Levenshtein recurrence: taking
minima row-wise equals taking them column-wise. -/
theorem min_exchange (b1 b2 b3 b4 b5 b6 b7 b8 b9 p q : Nat) :
    min (min (b1 + 1) (min (b2 + 1) (b3 + p)) + 1)
      (min (min (b4 + 1) (min (b5 + 1) (b6 + p)) + 1)
        (min (b7 + 1) (min (b8 + 1) (b9 + p)) + q))
  = min (min (b1 + 1) (min (b4 + 1) (b7 + q)) + 1)
      (min (min (b2 + 1) (min (b5 + 1) (b8 + q)) + 1)
        (min (b3 + 1) (min (b6 + 1) (b9 + q)) + p)) :=
  le_antisymm (min_exchange_aux b1 b2 b3 b4 b5 b6 b7 b8 b9 p q)
    (min_exchange_aux b1 b4 b7 b2 b5 b8 b3 b6 b9 q p)

/-- The "last characters" recurrence of the edit distance, proved from the
front-recursive definition.  This is what lets the left-to-right dynamic
program of `levenshtein` be related to `levSpec`. -/
theorem levB : ∀ (u v : Str) (x y : Char),
    levSpec (u ++ [x]) (v ++ [y]) =
      min (levSpec u (v ++ [y]) + 1)
        (min (levSpec (u ++ [x]) v + 1)
          (levSpec u v + (if x = y then 0 else 1)))
  | [], [], x, y => by
    simp only [List.nil_append, levSpec_nil, levSpec_cons_nil, levSpec_cons_cons,
      List.length_cons, List.length_nil]
  | [], v0 :: v', x, y => by
    have ih := levB [] v' x y
    simp only [List.nil_append, List.cons_append] at ih ⊢
    rw [levSpec_cons_cons x [] v0 (v' ++ [y]), ih,
      levSpec_cons_cons x [] v0 v']
    simp only [levSpec_nil, List.length_append, List.length_cons,
      List.length_nil]
    all_goals omega
  | u0 :: u', [], x, y => by
    have ih := levB u' [] x y
    simp only [List.nil_append, List.cons_append] at ih ⊢
    rw [levSpec_cons_cons u0 (u' ++ [x]) y [], ih,
      levSpec_cons_cons u0 u' y []]
    simp only [levSpec_nil_right, List.length_append, List.length_cons,
      List.length_nil]
    all_goals omega
  | u0 :: u', v0 :: v', x, y => by
    have ih1 := levB u' (v0 :: v') x y
    have ih2 := levB (u0 :: u') v' x y
    have ih3 := levB u' v' x y
    simp only [List.cons_append] at ih1 ih2 ih3 ⊢
    rw [levSpec_cons_cons u0 (u' ++ [x]) v0 (v' ++ [y]), ih1, ih2, ih3,
      levSpec_cons_cons u0 u' v0 (v' ++ [y]),
      levSpec_cons_cons u0 (u' ++ [x]) v0 v',
      levSpec_cons_cons u0 u' v0 v']
    exact min_exchange _ _ _ _ _ _ _ _ _ _ _
termination_by u v _ _ => u.length + v.length
decreasing_by
  all_goals simp only [List.length_cons, List.length_nil]
  all_goals omega

/-- The row of edit distances for word `u` against the successive prefixes
`vpre ++ (take j bs)` of the second word, for `j = 1 .. |bs|`. -/
def rowTail (u : Str) : Str → Str → List Nat
  | _, [] => []
  | vpre, y :: bs => levSpec u (vpre ++ [y]) :: rowTail u (vpre ++ [y]) bs

/-- Correctness of the inner loop of `levenshtein`: applied to the distance
row of `u`, it produces the distance row of `u ++ [x]`. -/
theorem rowStep_spec (x : Char) (u : Str) :
    ∀ (bs vpre : Str),
      levRowStep x bs (levSpec u vpre) (levSpec (u ++ [x]) vpre)
          (rowTail u vpre bs)
        = rowTail (u ++ [x]) vpre bs
  | [], vpre => by simp only [rowTail, levRowStep]
  | y :: bs, vpre => by
    simp only [rowTail, levRowStep]
    rw [← levB u vpre x y]
    rw [rowStep_spec x u bs (vpre ++ [y])]

theorem levNewRow_cons (x : Char) (bs : Str) (i d0 : Nat) (rest : List Nat) :
    levNewRow x bs i (d0 :: rest) = i :: levRowStep x bs d0 i rest := rfl

/-- Correctness of one outer iteration of `levenshtein`. -/
theorem levNewRow_spec (x : Char) (u b : Str) :
    levNewRow x b (u.length + 1) (levSpec u [] :: rowTail u [] b)
      = levSpec (u ++ [x]) [] :: rowTail (u ++ [x]) [] b := by
  have h1 : levSpec (u ++ [x]) [] = u.length + 1 := by
    rw [levSpec_nil_right]
    simp
  rw [levNewRow_cons, ← h1, rowStep_spec x u b []]

/-- Correctness of the outer loop of `levenshtein`. -/
theorem levLoop_spec (b : Str) :
    ∀ (as u : Str),
      levLoop b as (u.length + 1) (levSpec u [] :: rowTail u [] b)
        = levSpec (u ++ as) [] :: rowTail (u ++ as) [] b
  | [], u => by simp [levLoop]
  | x :: as, u => by
    simp only [levLoop]
    rw [levNewRow_spec x u b]
    have h2 : u.length + 1 + 1 = (u ++ [x]).length + 1 := by simp
    rw [h2, levLoop_spec b as (u ++ [x])]
    simp

/-- The initial dp row `[0, 1, ..., m]` is the distance row of the empty
word. -/
theorem range_eq_row (b : Str) :
    List.range (b.length + 1) = levSpec [] [] :: rowTail [] [] b := by
  have main : ∀ (bs vpre : Str),
      rowTail [] vpre bs = List.range' (vpre.length + 1) bs.length := by
    intro bs
    induction bs with
    | nil => intro vpre; rfl
    | cons y bs ih =>
      intro vpre
      rw [rowTail, levSpec_nil, ih (vpre ++ [y])]
      simp only [List.length_cons, List.range'_succ, List.length_append,
        List.length_nil]
  rw [main b [], List.range_eq_range', List.range'_succ, levSpec_nil]
  simp

/-- Index `|b|` of the distance row of `u` is the distance of `u` and `b`. -/
theorem rowTail_getD (u : Str) :
    ∀ (bs vpre : Str),
      (levSpec u vpre :: rowTail u vpre bs).getD bs.length 0
        = levSpec u (vpre ++ bs)
  | [], vpre => by simp
  | y :: bs, vpre => by
    simp only [rowTail, List.length_cons, List.getD_cons_succ]
    rw [rowTail_getD u bs (vpre ++ [y])]
    simp

/-- The rolling-row dynamic program of p5.cpp computes the standard
Levenshtein edit distance. -/
theorem levenshtein_eq_levSpec (a b : Str) : levenshtein a b = levSpec a b := by
  unfold levenshtein
  rw [range_eq_row b]
  have h0 : (1 : Nat) = ([] : Str).length + 1 := rfl
  rw [h0, levLoop_spec b a []]
  simpa using rowTail_getD a b []

theorem pairLE_total : ∀ p q : Nat × Nat, pairLE p q ∨ pairLE q p := by
  intro p q
  unfold pairLE
  omega

theorem pairLE_trans : ∀ {p q r : Nat × Nat}, pairLE p q → pairLE q r → pairLE p r := by
  intro p q r
  unfold pairLE
  omega

/-- `fillSugg` is "append the records of a take of the candidate list". -/
theorem fillSugg_eq (store : List Suggestion) (k : Int) :
    ∀ (l : List (Nat × Nat)) (acc : List Suggestion),
      fillSugg store k acc l =
        acc ++ ((l.take (k - (acc.length : Int)).toNat).map
          fun c => store.getD c.2 dflt)
  | [], acc => by unfold fillSugg; simp
  | c :: rest, acc => by
    unfold fillSugg
    by_cases h : (acc.length : Int) < k
    · rw [if_pos h, fillSugg_eq store k rest (acc ++ [store.getD c.2 dflt])]
      have : (k - (acc.length : Int)).toNat
          = (k - ((acc.length : Int) + 1)).toNat + 1 := by omega
      simp [this]
    · rw [if_neg h]
      have : (k - (acc.length : Int)).toNat = 0 := by omega
      simp [this]

/-- The §4.5 description of `fuzzy_suggest`, written from the spec's words:
pair every live record, in store order, with the *standard* Levenshtein
distance (`levSpec`) between the normalized query and the normalized key
truncated to `min (len key) (len query + 2)`; sort ascending by the
(distance, store index) pair; return the records of the first `top_k`. -/
def fuzzySuggestSpec (st : IndexState) (pfx : Str) (top_k : Int) :
    List Suggestion :=
  ((sortCandidates ((List.range st.suggestion_store.length).filterMap fun i =>
      if (st.suggestion_store.getD i dflt).key.isEmpty then none
      else
        some (levSpec (to_lower_normalize pfx)
          ((to_lower_normalize (st.suggestion_store.getD i dflt).key).take
            (min (to_lower_normalize (st.suggestion_store.getD i dflt).key).length
              ((to_lower_normalize pfx).length + 2))), i))).take
    top_k.toNat).map fun c => st.suggestion_store.getD c.2 dflt

/-- The implementation's candidate scan equals the spec's, by
`levenshtein_eq_levSpec`. -/
theorem fuzzyCandidates_eq (store : List Suggestion) (norm : Str) :
    fuzzyCandidates store norm =
      (List.range store.length).filterMap fun i =>
        if (store.getD i dflt).key.isEmpty then none
        else
          some (levSpec norm
            ((to_lower_normalize (store.getD i dflt).key).take
              (min (to_lower_normalize (store.getD i dflt).key).length
                (norm.length + 2))), i) := by
  unfold fuzzyCandidates
  simp only [levenshtein_eq_levSpec]

/-! ### Claim C9 -/

/-- Claim C9: `fuzzy_suggest(q, top_k)` returns exactly the first `top_k`
records of the live store records ordered ascending by the pair (standard
Levenshtein distance between `normalize(q)` and the truncated
`normalize(key)`, store index); the sorted candidate list is a sorted
permutation of the candidate scan. -/
theorem c9_theorem (st : IndexState) (pfx : Str) (k : Int) :
    fuzzy_suggest st pfx k = fuzzySuggestSpec st pfx k
    ∧ List.Sorted pairLE (sortCandidates
        (fuzzyCandidates st.suggestion_store (to_lower_normalize pfx)))
    ∧ List.Perm
        (sortCandidates
          (fuzzyCandidates st.suggestion_store (to_lower_normalize pfx)))
        (fuzzyCandidates st.suggestion_store (to_lower_normalize pfx)) := by
  refine ⟨?_, ?_, List.perm_insertionSort _ _⟩
  · unfold fuzzy_suggest fuzzySuggestSpec
    rw [fillSugg_eq, fuzzyCandidates_eq]
    simp
  · letI : IsTotal (Nat × Nat) pairLE := ⟨pairLE_total⟩
    letI : IsTrans (Nat × Nat) pairLE := ⟨fun _ _ _ => pairLE_trans⟩
    exact List.sorted_insertionSort _ _

/-! ### Trie path lemmas for the insert-only invariant (claims C3, C4) -/

theorem childOf_setChild_self : ∀ (cs : List (Char × Trie)) (c : Char) (t : Trie),
    childOf (setChild cs c t) c = some t
  | [], c, t => by simp [setChild, childOf]
  | (c', t') :: cs, c, t => by
    simp only [setChild]
    by_cases h : c' = c
    · rw [if_pos h]
      simp [childOf]
    · rw [if_neg h]
      simp only [childOf, if_neg h]
      exact childOf_setChild_self cs c t

theorem childOf_setChild_ne : ∀ (cs : List (Char × Trie)) (c c' : Char) (t : Trie),
    c' ≠ c → childOf (setChild cs c t) c' = childOf cs c'
  | [], c, c', t, h => by
    simp only [setChild, childOf]
    rw [if_neg (Ne.symm h)]
  | (c0, t0) :: cs, c, c', t, h => by
    simp only [setChild]
    by_cases h0 : c0 = c
    · rw [if_pos h0]
      simp only [childOf]
      rw [if_neg (Ne.symm h),
        if_neg (show c0 ≠ c' from fun hh => Ne.symm h (h0.symm.trans hh))]
    · rw [if_neg h0]
      simp only [childOf]
      by_cases h1 : c0 = c'
      · rw [if_pos h1, if_pos h1]
      · rw [if_neg h1, if_neg h1]
        exact childOf_setChild_ne cs c c' t h

/-- The cache of the node reached by `p`, or `[]` when there is none. -/
def cacheAt (t : Trie) (p : Str) : List Nat :=
  match t.findNode p with
  | some nd => nd.top_cache
  | none => []

/-- The terminal-suggestion list of the node reached by `p`, or `[]`. -/
def siAt (t : Trie) (p : Str) : List Nat :=
  match t.findNode p with
  | some nd => nd.suggestion_indices
  | none => []

theorem findNode_nil (t : Trie) : t.findNode [] = some t := rfl

theorem findNode_cons (t : Trie) (c : Char) (p : Str) :
    t.findNode (c :: p) =
      match childOf t.children c with
      | none => none
      | some t' => t'.findNode p := rfl

theorem cacheAt_nil (t : Trie) : cacheAt t [] = t.top_cache := rfl

theorem siAt_nil (t : Trie) : siAt t [] = t.suggestion_indices := rfl

theorem cacheAt_cons (t : Trie) (c : Char) (p : Str) :
    cacheAt t (c :: p) =
      match childOf t.children c with
      | none => []
      | some t' => cacheAt t' p := by
  unfold cacheAt
  rw [findNode_cons]
  cases childOf t.children c <;> rfl

theorem siAt_cons (t : Trie) (c : Char) (p : Str) :
    siAt t (c :: p) =
      match childOf t.children c with
      | none => []
      | some t' => siAt t' p := by
  unfold siAt
  rw [findNode_cons]
  cases childOf t.children c <;> rfl

theorem cacheAt_empty (p : Str) : cacheAt Trie.empty p = [] := by
  cases p with
  | nil => rfl
  | cons c p => rw [cacheAt_cons]; rfl

theorem siAt_empty (p : Str) : siAt Trie.empty p = [] := by
  cases p with
  | nil => rfl
  | cons c p => rw [siAt_cons]; rfl

/-- `insertPath` along `K` leaves every node off the path of `K` untouched. -/
theorem findNode_insertPath_off (store : List Suggestion) (idx : Nat) :
    ∀ (K : Str) (t : Trie) (p : Str), ¬ (p <+: K) →
      Trie.findNode (t.insertPath store idx K) p = t.findNode p
  | [], .node _ _ _ _, p, hp => by
    cases p with
    | nil => exact absurd List.nil_prefix hp
    | cons c p' => rfl
  | a :: K', .node e si cache cs, p, hp => by
    cases p with
    | nil => exact absurd List.nil_prefix hp
    | cons c p' =>
      have hins : (Trie.node e si cache cs).insertPath store idx (a :: K')
          = Trie.node e si (merge_into_cache store cache idx)
              (setChild cs a
                (((childOf cs a).getD Trie.empty).insertPath store idx K')) := rfl
      rw [hins, findNode_cons, findNode_cons]
      simp only [Trie.children]
      by_cases hc : c = a
      · subst hc
        have hp' : ¬ (p' <+: K') := fun h => hp (List.cons_prefix_cons.mpr ⟨rfl, h⟩)
        rw [childOf_setChild_self]
        dsimp only
        rw [findNode_insertPath_off store idx K' _ p' hp']
        cases hch : childOf cs c with
        | some ch => simp
        | none =>
          simp only [Option.getD_none]
          cases p' with
          | nil => exact absurd List.nil_prefix hp'
          | cons d p'' => rfl
      · rw [childOf_setChild_ne cs a c _ hc]
termination_by K _ _ => K.length

/-- On the path of `K`, `insertPath` merges `idx` into the node's cache. -/
theorem cacheAt_insertPath_on (store : List Suggestion) (idx : Nat) :
    ∀ (K : Str) (t : Trie) (p : Str), p <+: K →
      cacheAt (t.insertPath store idx K) p
        = merge_into_cache store (cacheAt t p) idx
  | [], .node _ _ _ _, [], _ => rfl
  | a :: K', .node _ _ _ _, [], _ => rfl
  | [], .node _ _ _ _, c :: p', hp => by
    rw [List.prefix_nil] at hp
    exact absurd hp (by simp)
  | a :: K', .node e si cache cs, c :: p', hp => by
    rcases List.cons_prefix_cons.mp hp with ⟨hc, hp'⟩
    subst hc
    have hins : (Trie.node e si cache cs).insertPath store idx (c :: K')
        = Trie.node e si (merge_into_cache store cache idx)
            (setChild cs c
              (((childOf cs c).getD Trie.empty).insertPath store idx K')) := rfl
    rw [hins, cacheAt_cons, cacheAt_cons]
    simp only [Trie.children]
    rw [childOf_setChild_self]
    dsimp only
    rw [cacheAt_insertPath_on store idx K' _ p' hp']
    cases hch : childOf cs c with
    | some ch => simp
    | none => simp [cacheAt_empty]
termination_by K _ _ => K.length

/-- `insertPath` appends `idx` to the terminal node's suggestion list and
leaves every other node's list unchanged. -/
theorem siAt_insertPath (store : List Suggestion) (idx : Nat) :
    ∀ (K : Str) (t : Trie) (p : Str),
      siAt (t.insertPath store idx K) p
        = if p = K then siAt t p ++ [idx] else siAt t p
  | [], .node _ _ _ _, [] => by
    rw [if_pos rfl]
    rfl
  | [], .node _ _ _ _, c :: p' => by
    rw [if_neg (by simp)]
    rfl
  | a :: K', .node _ _ _ _, [] => by
    rw [if_neg (by simp)]
    rfl
  | a :: K', .node e si cache cs, c :: p' => by
    have hins : (Trie.node e si cache cs).insertPath store idx (a :: K')
        = Trie.node e si (merge_into_cache store cache idx)
            (setChild cs a
              (((childOf cs a).getD Trie.empty).insertPath store idx K')) := rfl
    rw [hins, siAt_cons, siAt_cons]
    simp only [Trie.children]
    by_cases hc : c = a
    · subst hc
      rw [childOf_setChild_self]
      dsimp only
      rw [siAt_insertPath store idx K' _ p']
      have hiff : (c :: p' = c :: K') ↔ (p' = K') := by simp
      by_cases hpk : p' = K'
      · rw [if_pos hpk, if_pos (hiff.mpr hpk)]
        cases hch : childOf cs c with
        | some ch => simp
        | none => simp [siAt_empty]
      · rw [if_neg hpk, if_neg (fun h => hpk (hiff.mp h))]
        cases hch : childOf cs c with
        | some ch => simp
        | none => simp [siAt_empty]
    · rw [childOf_setChild_ne cs a c _ hc, if_neg (by simp [hc])]
termination_by K _ _ => K.length

/-- Caches off the path are untouched. -/
theorem cacheAt_insertPath_off (store : List Suggestion) (idx : Nat)
    (K : Str) (t : Trie) (p : Str) (hp : ¬ (p <+: K)) :
    cacheAt (t.insertPath store idx K) p = cacheAt t p := by
  unfold cacheAt
  rw [findNode_insertPath_off store idx K t p hp]

/-- Strict sortedness of a cache implies it has no duplicates. -/
theorem pairwise_cmp_nodup {store : List Suggestion} {l : List Nat}
    (h : List.Pairwise (fun a b => suggestion_cmp_idx store a b = true) l) :
    l.Nodup :=
  h.imp fun {a b} hab heq => by
    subst heq
    rw [cmp_irrefl] at hab
    exact Bool.false_ne_true hab

/-- Membership in a merged cache. -/
theorem merge_mem {store : List Suggestion} {cache : List Nat} {idx x : Nat}
    (h : x ∈ merge_into_cache store cache idx) : x ∈ cache ∨ x = idx := by
  unfold merge_into_cache at h
  by_cases hin : idx ∈ cache
  · rw [if_pos hin] at h
    have := (sortIdx_perm store cache).mem_iff.1 (List.mem_of_mem_take h)
    exact Or.inl this
  · rw [if_neg hin] at h
    have := (sortIdx_perm store _).mem_iff.1 (List.mem_of_mem_take h)
    rcases List.mem_append.1 this with h1 | h1
    · exact Or.inl h1
    · exact Or.inr (List.mem_singleton.1 h1)

/-- A merged cache is strictly sorted by the comparator (on the store the
merge was performed with). -/
theorem merge_sorted {store : List Suggestion} {cache : List Nat} {idx : Nat}
    (hn : cache.Nodup) :
    List.Pairwise (fun a b => suggestion_cmp_idx store a b = true)
      (merge_into_cache store cache idx) := by
  unfold merge_into_cache
  by_cases hin : idx ∈ cache
  · rw [if_pos hin]
    refine sorted_strict ?_ ?_
    · exact List.Pairwise.sublist (List.take_sublist _ _) (sortIdx_sorted store _)
    · exact ((sortIdx_perm store _).nodup_iff.2 hn).sublist (List.take_sublist _ _)
  · rw [if_neg hin]
    refine sorted_strict ?_ ?_
    · exact List.Pairwise.sublist (List.take_sublist _ _) (sortIdx_sorted store _)
    · have hn2 : (cache ++ [idx]).Nodup := by
        simp [List.nodup_append, hn, hin]
      exact ((sortIdx_perm store _).nodup_iff.2 hn2).sublist (List.take_sublist _ _)

/-- A merged cache respects the size cap. -/
theorem merge_len {store : List Suggestion} {cache : List Nat} {idx : Nat} :
    (merge_into_cache store cache idx).length ≤ MAX_CACHE_PER_NODE := by
  unfold merge_into_cache
  by_cases hin : idx ∈ cache
  · rw [if_pos hin]
    simp [List.length_take]
  · rw [if_neg hin]
    simp [List.length_take]

/-- The comparator only looks at the two records it compares. -/
theorem cmp_congr {store store' : List Suggestion} {a b : Nat}
    (ha : store'.getD a dflt = store.getD a dflt)
    (hb : store'.getD b dflt = store.getD b dflt) :
    suggestion_cmp_idx store' a b = suggestion_cmp_idx store a b := by
  rw [cmp_eq_core, cmp_eq_core, ha, hb]

/-- The invariant maintained by `insert_suggestion` from the empty index:
the key index is well-formed and maps normalized keys faithfully, every
node's cache holds in-range ids whose normalized keys extend the node's
prefix, is strictly sorted by the current comparator and capped at
`MAX_CACHE_PER_NODE`, and every terminal list entry is the key-index id of
the node's prefix. -/
structure InsInv (st : IndexState) : Prop where
  wf : KeyIdxWF st
  map_key : ∀ q ∈ st.key_to_index,
    to_lower_normalize (st.suggestion_store.getD q.2 dflt).key = q.1
  cache_mem : ∀ p : Str, ∀ i ∈ cacheAt st.root p,
    i < st.suggestion_store.length ∧
      p <+: to_lower_normalize (st.suggestion_store.getD i dflt).key
  cache_sorted : ∀ p : Str, List.Pairwise
    (fun a b => suggestion_cmp_idx st.suggestion_store a b = true)
    (cacheAt st.root p)
  cache_len : ∀ p : Str, (cacheAt st.root p).length ≤ MAX_CACHE_PER_NODE
  si_mem : ∀ p : Str, ∀ i ∈ siAt st.root p,
    lookupIdx st.key_to_index p = some i

theorem insInv_empty : InsInv emptyState := by
  refine ⟨?_, ?_, ?_, ?_, ?_, ?_⟩
  · intro q hq
    simp [emptyState] at hq
  · intro q hq
    simp [emptyState] at hq
  · intro p i hi
    rw [show emptyState.root = Trie.empty from rfl, cacheAt_empty] at hi
    simp at hi
  · intro p
    rw [show emptyState.root = Trie.empty from rfl, cacheAt_empty]
    exact List.Pairwise.nil
  · intro p
    rw [show emptyState.root = Trie.empty from rfl, cacheAt_empty]
    simp [MAX_CACHE_PER_NODE]
  · intro p i hi
    rw [show emptyState.root = Trie.empty from rfl, siAt_empty] at hi
    simp at hi

/-- `insert_suggestion` preserves the invariant. -/
theorem insInv_insert {st : IndexState} (inv : InsInv st) (k : Str) (t : Nat) :
    InsInv (insert_suggestion st k t) := by
  have hwf' := insert_wf inv.wf k t
  cases hl : lookupIdx st.key_to_index (to_lower_normalize k) with
  | none =>
    rw [insert_new st k t hl] at hwf' ⊢
    have hkeyN : (st.suggestion_store ++ [(⟨k, 1, t % 2 ^ 64⟩ : Suggestion)]).getD
        st.suggestion_store.length dflt = ⟨k, 1, t % 2 ^ 64⟩ :=
      getD_append_length _ _
    have hold : ∀ i, i < st.suggestion_store.length →
        (st.suggestion_store ++ [(⟨k, 1, t % 2 ^ 64⟩ : Suggestion)]).getD i dflt
          = st.suggestion_store.getD i dflt := fun _ hi => getD_append hi
    refine ⟨hwf', ?_, ?_, ?_, ?_, ?_⟩
    · intro q hq
      dsimp only at hq ⊢
      rcases List.mem_append.1 hq with hq | hq
      · rw [hold _ (inv.wf q hq)]
        exact inv.map_key q hq
      · have hq2 := List.mem_singleton.1 hq
        subst hq2
        rw [hkeyN]
    · intro p i hi
      dsimp only at hi ⊢
      by_cases hp : p <+: to_lower_normalize k
      · rw [cacheAt_insertPath_on (st.suggestion_store ++ [(⟨k, 1, t % 2 ^ 64⟩ : Suggestion)])
          st.suggestion_store.length (to_lower_normalize k) st.root p hp] at hi
        rcases merge_mem hi with hi | hi
        · rcases inv.cache_mem p i hi with ⟨hlt, hpfx⟩
          refine ⟨by simp; omega, ?_⟩
          rw [hold i hlt]
          exact hpfx
        · subst hi
          refine ⟨by simp, ?_⟩
          rw [hkeyN]
          exact hp
      · rw [cacheAt_insertPath_off (st.suggestion_store ++ [(⟨k, 1, t % 2 ^ 64⟩ : Suggestion)])
          st.suggestion_store.length (to_lower_normalize k) st.root p hp] at hi
        rcases inv.cache_mem p i hi with ⟨hlt, hpfx⟩
        refine ⟨by simp; omega, ?_⟩
        rw [hold i hlt]
        exact hpfx
    · intro p
      dsimp only
      by_cases hp : p <+: to_lower_normalize k
      · rw [cacheAt_insertPath_on (st.suggestion_store ++ [(⟨k, 1, t % 2 ^ 64⟩ : Suggestion)])
          st.suggestion_store.length (to_lower_normalize k) st.root p hp]
        exact merge_sorted (pairwise_cmp_nodup (inv.cache_sorted p))
      · rw [cacheAt_insertPath_off (st.suggestion_store ++ [(⟨k, 1, t % 2 ^ 64⟩ : Suggestion)])
          st.suggestion_store.length (to_lower_normalize k) st.root p hp]
        refine List.Pairwise.imp_of_mem ?_ (inv.cache_sorted p)
        intro a b ha hb hab
        rcases inv.cache_mem p a ha with ⟨hla, _⟩
        rcases inv.cache_mem p b hb with ⟨hlb, _⟩
        rw [cmp_congr (hold a hla) (hold b hlb)]
        exact hab
    · intro p
      dsimp only
      by_cases hp : p <+: to_lower_normalize k
      · rw [cacheAt_insertPath_on (st.suggestion_store ++ [(⟨k, 1, t % 2 ^ 64⟩ : Suggestion)])
          st.suggestion_store.length (to_lower_normalize k) st.root p hp]
        exact merge_len
      · rw [cacheAt_insertPath_off (st.suggestion_store ++ [(⟨k, 1, t % 2 ^ 64⟩ : Suggestion)])
          st.suggestion_store.length (to_lower_normalize k) st.root p hp]
        exact inv.cache_len p
    · intro p i hi
      dsimp only at hi ⊢
      rw [siAt_insertPath] at hi
      by_cases hpK : p = to_lower_normalize k
      · rw [if_pos hpK] at hi
        rcases List.mem_append.1 hi with hi | hi
        · have h2 := inv.si_mem p i hi
          rw [hpK, hl] at h2
          exact absurd h2 (by simp)
        · have h2 := List.mem_singleton.1 hi
          subst h2
          rw [hpK, lookupIdx_append_none _ hl]
          simp [lookupIdx]
      · rw [if_neg hpK] at hi
        exact lookupIdx_append_some _ (inv.si_mem p i hi)
  | some idx =>
    rw [insert_existing st k t idx hl] at hwf' ⊢
    have hlen : idx < st.suggestion_store.length := inv.wf _ (lookupIdx_mem hl)
    have hKey : to_lower_normalize (st.suggestion_store.getD idx dflt).key
        = to_lower_normalize k := inv.map_key _ (lookupIdx_mem hl)
    have hsetself : (st.suggestion_store.set idx
        { st.suggestion_store.getD idx dflt with
            freq := ((st.suggestion_store.getD idx dflt).freq + 1) % 2 ^ 64
            last_ts := t % 2 ^ 64 }).getD idx dflt
        = { st.suggestion_store.getD idx dflt with
            freq := ((st.suggestion_store.getD idx dflt).freq + 1) % 2 ^ 64
            last_ts := t % 2 ^ 64 } := getD_set_self hlen _
    have hkey' : to_lower_normalize ((st.suggestion_store.set idx
        { st.suggestion_store.getD idx dflt with
            freq := ((st.suggestion_store.getD idx dflt).freq + 1) % 2 ^ 64
            last_ts := t % 2 ^ 64 }).getD idx dflt).key
        = to_lower_normalize k := by
      rw [hsetself]
      exact hKey
    have hold : ∀ i, i ≠ idx →
        (st.suggestion_store.set idx
          { st.suggestion_store.getD idx dflt with
              freq := ((st.suggestion_store.getD idx dflt).freq + 1) % 2 ^ 64
              last_ts := t % 2 ^ 64 }).getD i dflt
          = st.suggestion_store.getD i dflt :=
      fun i hi => getD_set_ne (fun h => hi h.symm) _
    have hlen' : (st.suggestion_store.set idx
        { st.suggestion_store.getD idx dflt with
            freq := ((st.suggestion_store.getD idx dflt).freq + 1) % 2 ^ 64
            last_ts := t % 2 ^ 64 }).length = st.suggestion_store.length :=
      List.length_set ..
    have hany : ∀ i, i < st.suggestion_store.length →
        to_lower_normalize ((st.suggestion_store.set idx
          { st.suggestion_store.getD idx dflt with
              freq := ((st.suggestion_store.getD idx dflt).freq + 1) % 2 ^ 64
              last_ts := t % 2 ^ 64 }).getD i dflt).key
          = to_lower_normalize ((st.suggestion_store.getD i dflt).key) := by
      intro i hi
      by_cases h : i = idx
      · subst h
        rw [hsetself]
      · rw [hold i h]
    refine ⟨hwf', ?_, ?_, ?_, ?_, ?_⟩
    · intro q hq
      dsimp only at hq ⊢
      rw [hany q.2 (inv.wf q hq)]
      exact inv.map_key q hq
    · intro p i hi
      dsimp only at hi ⊢
      by_cases hp : p <+: to_lower_normalize k
      · rw [cacheAt_insertPath_on _ idx (to_lower_normalize k) st.root p hp] at hi
        rcases merge_mem hi with hi | hi
        · rcases inv.cache_mem p i hi with ⟨hlt, hpfx⟩
          refine ⟨by simp only [List.length_set]; exact hlt, ?_⟩
          rw [hany i hlt]
          exact hpfx
        · subst hi
          refine ⟨by simp only [List.length_set]; exact hlen, ?_⟩
          rw [hkey']
          exact hp
      · rw [cacheAt_insertPath_off _ idx (to_lower_normalize k) st.root p hp] at hi
        rcases inv.cache_mem p i hi with ⟨hlt, hpfx⟩
        refine ⟨by simp only [List.length_set]; exact hlt, ?_⟩
        rw [hany i hlt]
        exact hpfx
    · intro p
      dsimp only
      by_cases hp : p <+: to_lower_normalize k
      · rw [cacheAt_insertPath_on _ idx (to_lower_normalize k) st.root p hp]
        exact merge_sorted (pairwise_cmp_nodup (inv.cache_sorted p))
      · rw [cacheAt_insertPath_off _ idx (to_lower_normalize k) st.root p hp]
        refine List.Pairwise.imp_of_mem ?_ (inv.cache_sorted p)
        intro a b ha hb hab
        rcases inv.cache_mem p a ha with ⟨hla, hpa⟩
        rcases inv.cache_mem p b hb with ⟨hlb, hpb⟩
        have hna : a ≠ idx := by
          intro h
          subst h
          rw [hKey] at hpa
          exact hp hpa
        have hnb : b ≠ idx := by
          intro h
          subst h
          rw [hKey] at hpb
          exact hp hpb
        rw [cmp_congr (hold a hna) (hold b hnb)]
        exact hab
    · intro p
      dsimp only
      by_cases hp : p <+: to_lower_normalize k
      · rw [cacheAt_insertPath_on _ idx (to_lower_normalize k) st.root p hp]
        exact merge_len
      · rw [cacheAt_insertPath_off _ idx (to_lower_normalize k) st.root p hp]
        exact inv.cache_len p
    · intro p i hi
      dsimp only at hi ⊢
      rw [siAt_insertPath] at hi
      by_cases hpK : p = to_lower_normalize k
      · rw [if_pos hpK] at hi
        rcases List.mem_append.1 hi with hi | hi
        · have h2 := inv.si_mem p i hi
          rw [hpK] at h2 ⊢
          exact h2
        · have h2 := List.mem_singleton.1 hi
          subst h2
          rw [hpK]
          exact hl
      · rw [if_neg hpK] at hi
        exact inv.si_mem p i hi

/-- Folding inserts over an invariant state preserves the invariant. -/
theorem insInv_foldl : ∀ (ws : List (Str × Nat)) (st : IndexState), InsInv st →
    InsInv (ws.foldl (fun st w => insert_suggestion st w.1 w.2) st)
  | [], _, h => h
  | w :: ws, _, h => insInv_foldl ws _ (insInv_insert h w.1 w.2)

/-- The insert-only invariant holds after any sequence of inserts from empty. -/
theorem insInv_run (ws : List (Str × Nat)) : InsInv (runInserts ws) :=
  insInv_foldl ws emptyState insInv_empty

/-- Unfolding a run of inserts at the last operation. -/
theorem runInserts_snoc (ws : List (Str × Nat)) (w : Str × Nat) :
    runInserts (ws ++ [w]) = insert_suggestion (runInserts ws) w.1 w.2 := by
  simp only [runInserts, List.foldl_append, List.foldl_cons, List.foldl_nil]

/-- Lookup in a one-entry map misses on a different key. -/
theorem lookupIdx_single_ne {K p : Str} (h : ¬K = p) (N : Nat) :
    lookupIdx [(K, N)] p = none := by
  simp only [lookupIdx, if_neg h]

/-- C3: refuted as stated. The claim quantifies over every sequence of insert
and delete operations, but `delete_suggestion` rewrites the stored record
(decrementing `freq` and zeroing `last_ts`) without touching any trie cache,
so after insert("ab"), insert("ab"), insert("ac"), delete("ab") the root-child
cache still lists id 0 before id 1 although id 1 now has the higher current
score: the cache is no longer sorted by descending current score. -/
theorem c3_counterexample :
    cacheAt ((delete_suggestion (insert_suggestion (insert_suggestion
        (insert_suggestion emptyState ['a', 'b'] 7) ['a', 'b'] 7)
        ['a', 'c'] 7) ['a', 'b']).2).root ['a'] = [0, 1] ∧
    ¬ List.Pairwise
      (fun a b => suggestion_cmp_idx
        ((delete_suggestion (insert_suggestion (insert_suggestion
          (insert_suggestion emptyState ['a', 'b'] 7) ['a', 'b'] 7)
          ['a', 'c'] 7) ['a', 'b']).2).suggestion_store a b = true)
      (cacheAt ((delete_suggestion (insert_suggestion (insert_suggestion
          (insert_suggestion emptyState ['a', 'b'] 7) ['a', 'b'] 7)
          ['a', 'c'] 7) ['a', 'b']).2).root ['a']) := by
  constructor
  · rfl
  · decide

/-- C3 (amended to insert-only sequences): after any sequence of inserts from
the empty index, EVERY trie node — the node reached from the root by any raw
path `p`, normalized or not — has a cache whose ids are in range and point at
suggestions whose normalized key extends `p`, the cache is sorted by the
ranking comparator (descending score, then key, then id), and its length is
at most MAX_CACHE_PER_NODE = 10.  (Paths reaching no node have `cacheAt` =
`[]`, for which all three parts hold trivially.) -/
theorem c3_theorem (ws : List (Str × Nat)) (p : Str) :
    (∀ i ∈ cacheAt (runInserts ws).root p,
      i < (runInserts ws).suggestion_store.length ∧
        p <+: to_lower_normalize
          (((runInserts ws).suggestion_store.getD i dflt).key)) ∧
    List.Pairwise
      (fun a b =>
        suggestion_cmp_idx (runInserts ws).suggestion_store a b = true)
      (cacheAt (runInserts ws).root p) ∧
    (cacheAt (runInserts ws).root p).length ≤ MAX_CACHE_PER_NODE :=
  ⟨(insInv_run ws).cache_mem p, (insInv_run ws).cache_sorted p,
    (insInv_run ws).cache_len p⟩

/-- C3 witness: after inserting "a b", the node at the raw path "a " (a path
that prefix normalization could never produce) has cache [0], whose sole id
is live and points at the key "a b" extending the path, trivially sorted and
within the cap. -/
theorem c3_witness :
    cacheAt (runInserts [((['a', ' ', 'b'] : Str), 5)]).root ['a', ' ']
      = [0] ∧
    ((∀ i ∈ cacheAt (runInserts [((['a', ' ', 'b'] : Str), 5)]).root
        ['a', ' '],
      i < (runInserts
        [((['a', ' ', 'b'] : Str), 5)]).suggestion_store.length ∧
        ['a', ' '] <+: to_lower_normalize
          (((runInserts [((['a', ' ', 'b'] : Str), 5)]).suggestion_store.getD
            i dflt).key)) ∧
    List.Pairwise
      (fun a b =>
        suggestion_cmp_idx
          (runInserts [((['a', ' ', 'b'] : Str), 5)]).suggestion_store
          a b = true)
      (cacheAt (runInserts [((['a', ' ', 'b'] : Str), 5)]).root ['a', ' ']) ∧
    (cacheAt (runInserts
        [((['a', ' ', 'b'] : Str), 5)]).root ['a', ' ']).length
      ≤ MAX_CACHE_PER_NODE) :=
  ⟨rfl, c3_theorem [((['a', ' ', 'b'] : Str), 5)] ['a', ' ']⟩

/-- C4: refuted as stated. `insert_suggestion` pushes the id onto the terminal
node's suggestion_indices unconditionally, with no membership check: two
inserts of "a" leave the terminal list [0, 0], a duplicated id. -/
theorem c4_counterexample :
    siAt (runInserts [((['a'] : Str), 0), (['a'], 1)]).root ['a'] = [0, 0] ∧
    ¬ List.Nodup
      (siAt (runInserts [((['a'] : Str), 0), (['a'], 1)]).root ['a']) := by
  constructor
  · rfl
  · decide

/-- C4 (amended): after any sequence of inserts from the empty index, the
terminal-suggestion list at a normalized path p is the id of p repeated once
per insert whose key normalizes to p (so repeated inserts of the same key DO
duplicate the id); paths absent from the key index have an empty list. -/
theorem c4_theorem (ws : List (Str × Nat)) (p : Str) :
    (∀ idx, lookupIdx (runInserts ws).key_to_index p = some idx →
      siAt (runInserts ws).root p
        = List.replicate
            (ws.countP (fun w => decide (to_lower_normalize w.1 = p)))
            idx) ∧
    (lookupIdx (runInserts ws).key_to_index p = none →
      siAt (runInserts ws).root p = [] ∧
      ws.countP (fun w => decide (to_lower_normalize w.1 = p)) = 0) := by
  induction ws using List.reverseRecOn with
  | nil =>
    constructor
    · intro idx hidx
      exact absurd hidx (by simp [runInserts, emptyState, lookupIdx])
    · intro _
      exact ⟨by rw [show (runInserts []).root = Trie.empty from rfl,
        siAt_empty], rfl⟩
  | append_singleton ws w ih =>
    rw [runInserts_snoc]
    cases hl : lookupIdx (runInserts ws).key_to_index
        (to_lower_normalize w.1) with
    | none =>
      rw [insert_new _ _ _ hl]
      by_cases hpK : p = to_lower_normalize w.1
      · subst hpK
        constructor
        · intro idx hidx
          dsimp only at hidx ⊢
          rw [lookupIdx_append_none _ hl] at hidx
          simp only [lookupIdx, eq_self_iff_true, if_true,
            Option.some.injEq] at hidx
          subst hidx
          rw [siAt_insertPath, if_pos rfl, (ih.2 hl).1]
          have hc := (ih.2 hl).2
          simp [List.countP_append, List.countP_cons, hc]
        · intro hnone
          dsimp only at hnone
          rw [lookupIdx_append_none _ hl] at hnone
          simp [lookupIdx] at hnone
      · have hK : ¬to_lower_normalize w.1 = p := fun hh => hpK hh.symm
        constructor
        · intro idx hidx
          dsimp only at hidx ⊢
          cases hl2 : lookupIdx (runInserts ws).key_to_index p with
          | none =>
            rw [lookupIdx_append_none _ hl2, lookupIdx_single_ne hK] at hidx
            exact absurd hidx (by simp)
          | some i =>
            rw [lookupIdx_append_some _ hl2] at hidx
            have hii := Option.some.inj hidx
            subst hii
            rw [siAt_insertPath, if_neg hpK, ih.1 i hl2]
            have hcnt : (ws ++ [w]).countP
                (fun x => decide (to_lower_normalize x.1 = p))
                = ws.countP (fun x => decide (to_lower_normalize x.1 = p)) := by
              simp [List.countP_append, List.countP_cons, hK]
            rw [hcnt]
        · intro hnone
          dsimp only at hnone ⊢
          cases hl2 : lookupIdx (runInserts ws).key_to_index p with
          | some i =>
            rw [lookupIdx_append_some _ hl2] at hnone
            exact absurd hnone (by simp)
          | none =>
            rcases ih.2 hl2 with ⟨hsi, hc0⟩
            refine ⟨by rw [siAt_insertPath, if_neg hpK, hsi], ?_⟩
            simp [List.countP_append, List.countP_cons, hc0, hK]
    | some idx0 =>
      rw [insert_existing _ _ _ idx0 hl]
      by_cases hpK : p = to_lower_normalize w.1
      · subst hpK
        constructor
        · intro idx hidx
          dsimp only at hidx ⊢
          rw [hl] at hidx
          have hii := Option.some.inj hidx
          subst hii
          rw [siAt_insertPath, if_pos rfl, ih.1 idx0 hl]
          have hcnt : (ws ++ [w]).countP
              (fun x => decide (to_lower_normalize x.1
                = to_lower_normalize w.1))
              = ws.countP (fun x => decide (to_lower_normalize x.1
                = to_lower_normalize w.1)) + 1 := by
            simp [List.countP_append, List.countP_cons]
          rw [hcnt, List.replicate_succ']
        · intro hnone
          dsimp only at hnone
          rw [hl] at hnone
          exact absurd hnone (by simp)
      · have hK : ¬to_lower_normalize w.1 = p := fun hh => hpK hh.symm
        constructor
        · intro idx hidx
          dsimp only at hidx ⊢
          rw [siAt_insertPath, if_neg hpK, ih.1 idx hidx]
          have hcnt : (ws ++ [w]).countP
              (fun x => decide (to_lower_normalize x.1 = p))
              = ws.countP (fun x => decide (to_lower_normalize x.1 = p)) := by
            simp [List.countP_append, List.countP_cons, hK]
          rw [hcnt]
        · intro hnone
          dsimp only at hnone ⊢
          rcases ih.2 hnone with ⟨hsi, hc0⟩
          refine ⟨by rw [siAt_insertPath, if_neg hpK, hsi], ?_⟩
          simp [List.countP_append, List.countP_cons, hc0, hK]

/-- C4 witness: two inserts of "a" leave the terminal list at path "a" equal
to the id 0 repeated twice. -/
theorem c4_witness :
    siAt (runInserts [((['a'] : Str), 0), (['a'], 1)]).root ['a']
      = List.replicate 2 0 :=
  ( c4_theorem [((['a'] : Str), 0), (['a'], 1)] ['a']).1 0 rfl

end AC
